import Mathlib

/-!
Verification of the BlenderMCP command bridge (`addon.py`, class
`BlenderMCPServer`): the per-connection JSON framing buffer, the command
dispatch (`execute_command` / `_execute_command_internal`) with its
feature-flag-gated registry, the response envelope, the per-command reply
wrapper (`execute_wrapper`), the server lifecycle (`start` / `stop`), and
the `get_scene_info` handler.

Modelling conventions:
* Python JSON values are the inductive `JSON`; numbers are embedded as
  rationals (mantissa-and-exponent decimal numbers are exact in ℚ; binary
  floating point rounding of Python floats is out of scope, as are the
  non-standard `NaN`/`Infinity` literals accepted by Python `json`).
* `json.loads` is embedded as `loads` below: a recursive-descent parser with
  the exact grammar decisions of CPython `json` (whole-input parse, leading
  and trailing whitespace allowed, `"Extra data"` on a remainder, strict
  rejection of raw control characters in strings, Python number regex with
  no leading zeros, `\uXXXX` escapes with surrogate-pair combination;
  duplicate object keys resolved last-wins as for a Python dict).  A lone
  surrogate escape is rejected here (CPython would build a lone-surrogate
  `str`, which `String` cannot hold); no claim exercises that corner.
* Handlers are synchronous functions from a keyword-argument bag to a result
  or a raised exception, `Handler := List (String × JSON) → Except String JSON`,
  with `Except.error` carrying `str(e)`.
* `buffer.decode("utf-8")` is embedded as `utf8Decode` over byte lists, and a
  raised `UnicodeDecodeError` (which the client loop does not catch: it is
  not a `json.JSONDecodeError`) shows up as the `fatal` outcome of `feedB`.
-/

namespace BlenderMCP

/-- A JSON value as produced by `json.loads`: `null` is Python `None`,
objects are insertion-ordered dicts (duplicate keys already collapsed). -/
inductive JSON where
  | null
  | bool (b : Bool)
  | num (q : ℚ)
  | str (s : String)
  | arr (elems : List JSON)
  | obj (fields : List (String × JSON))

mutual

def beqJ : JSON → JSON → Bool
  | .null, .null => true
  | .bool a, .bool b => a == b
  | .num a, .num b => a == b
  | .str a, .str b => a == b
  | .arr a, .arr b => beqL a b
  | .obj a, .obj b => beqF a b
  | _, _ => false
termination_by structural a => a

def beqL : List JSON → List JSON → Bool
  | [], [] => true
  | a :: as, b :: bs => beqJ a b && beqL as bs
  | _, _ => false
termination_by structural a => a

def beqF : List (String × JSON) → List (String × JSON) → Bool
  | [], [] => true
  | (k, v) :: as, (k2, v2) :: bs => k == k2 && beqJ v v2 && beqF as bs
  | _, _ => false
termination_by structural a => a

end

mutual

theorem beqJ_iff : ∀ (a b : JSON), beqJ a b = true ↔ a = b
  | .null, b => by cases b <;> simp [beqJ]
  | .bool x, b => by cases b <;> simp [beqJ]
  | .num x, b => by cases b <;> simp [beqJ]
  | .str x, b => by cases b <;> simp [beqJ]
  | .arr xs, b => by cases b <;> simp [beqJ, beqL_iff xs]
  | .obj xs, b => by cases b <;> simp [beqJ, beqF_iff xs]

theorem beqL_iff : ∀ (a b : List JSON), beqL a b = true ↔ a = b
  | [], b => by cases b <;> simp [beqL]
  | x :: xs, b => by
      cases b <;> simp [beqL, beqJ_iff x, beqL_iff xs]

theorem beqF_iff : ∀ (a b : List (String × JSON)), beqF a b = true ↔ a = b
  | [], b => by cases b <;> simp [beqF]
  | (k, v) :: xs, b => by
      cases b with
      | nil => simp [beqF]
      | cons hd tl =>
          obtain ⟨k2, v2⟩ := hd
          simp [beqF, beqJ_iff v, beqF_iff xs, and_assoc]

end

instance : DecidableEq JSON := fun a b => decidable_of_iff _ (beqJ_iff a b)

instance {ε α : Type} [DecidableEq ε] [DecidableEq α] : DecidableEq (Except ε α) :=
  fun x y =>
    match x, y with
    | .ok a, .ok b =>
        if h : a = b then .isTrue (by rw [h]) else .isFalse (by simp [h])
    | .error a, .error b =>
        if h : a = b then .isTrue (by rw [h]) else .isFalse (by simp [h])
    | .ok _, .error _ => .isFalse (by simp)
    | .error _, .ok _ => .isFalse (by simp)

/-- Python dict lookup `d.get(key)` on an insertion-ordered assoc list. -/
def alGet {α : Type} : List (String × α) → String → Option α
  | [], _ => none
  | (k, v) :: r, key => if k = key then some v else alGet r key

/-- Python dict assignment `d[key] = v`: replaces in place (keeping the key
position, as a Python dict does) or appends a fresh key at the end. -/
def alSet {α : Type} : List (String × α) → String → α → List (String × α)
  | [], k, v => [(k, v)]
  | (k2, v2) :: r, k, v =>
      if k2 = k then (k2, v) :: r else (k2, v2) :: alSet r k v

/-! ### The embedded `json.loads` -/

/-- JSON whitespace, the ` \t\n\r` class of CPython `json`. -/
def isWs (c : Char) : Bool := c = ' ' || c = '\t' || c = '\n' || c = '\r'

def isDigit (c : Char) : Bool := '0' ≤ c && c ≤ '9'

def skipWs : List Char → List Char
  | [] => []
  | c :: cs => if isWs c then skipWs cs else c :: cs

def takeDigits : List Char → List Char × List Char
  | [] => ([], [])
  | c :: cs =>
      if isDigit c then
        let (ds, r) := takeDigits cs
        (c :: ds, r)
      else ([], c :: cs)

def digitsVal (ds : List Char) : Nat :=
  ds.foldl (fun acc c => acc * 10 + (c.toNat - '0'.toNat)) 0

def hexDigitVal (c : Char) : Option Nat :=
  if c.toNat ≥ 0x30 ∧ c.toNat ≤ 0x39 then some (c.toNat - 0x30)
  else if c.toNat ≥ 0x61 ∧ c.toNat ≤ 0x66 then some (c.toNat - 0x61 + 10)
  else if c.toNat ≥ 0x41 ∧ c.toNat ≤ 0x46 then some (c.toNat - 0x41 + 10)
  else none

def hex4Val (a b c d : Char) : Option Nat := do
  let va ← hexDigitVal a
  let vb ← hexDigitVal b
  let vc ← hexDigitVal c
  let vd ← hexDigitVal d
  pure (((va * 16 + vb) * 16 + vc) * 16 + vd)

/-- Single-character escapes of `py_scanstring` (BACKSLASH table). -/
def escTable : Char → Option Char
  | 'n' => some '\n'
  | 't' => some '\t'
  | 'r' => some '\r'
  | 'b' => some (Char.ofNat 0x08)
  | 'f' => some (Char.ofNat 0x0C)
  | '"' => some '"'
  | '\\' => some (Char.ofNat 0x5C)
  | '/' => some (Char.ofNat 0x2F)
  | _ => none

/-- Decode one escape sequence after a backslash, as `py_scanstring` does:
the `\uXXXX` form (with surrogate-pair combination through `decodeLowSur`;
a lone surrogate is rejected here, see the module comment) or a one-character
escape from `escTable`. -/
def decodeLowSur (n : ℕ) : List Char → Except String (Char × List Char)
  | b :: u :: a2 :: b2 :: c2 :: d2 :: rest3 =>
      if b = '\\' ∧ u = 'u' then
        match hex4Val a2 b2 c2 d2 with
        | none => .error "Invalid \\uXXXX escape"
        | some n2 =>
            if 0xDC00 ≤ n2 ∧ n2 ≤ 0xDFFF then
              .ok (Char.ofNat (0x10000 + (n - 0xD800) * 0x400 + (n2 - 0xDC00)), rest3)
            else .error "lone surrogate escape"
      else .error "lone surrogate escape"
  | _ => .error "lone surrogate escape"

def decodeEsc : List Char → Except String (Char × List Char)
  | [] => .error "Unterminated string starting at"
  | e :: rest1 =>
      if e = 'u' then
        match rest1 with
        | a :: b :: c1 :: d :: rest2 =>
            (match hex4Val a b c1 d with
             | none => .error "Invalid \\uXXXX escape"
             | some n =>
                 if n < 0xD800 ∨ 0xDFFF < n then .ok (Char.ofNat n, rest2)
                 else if n < 0xDC00 then decodeLowSur n rest2
                 else .error "lone surrogate escape")
        | _ => .error "Invalid \\uXXXX escape"
      else
        match escTable e with
        | some ch => .ok (ch, rest1)
        | none => .error "Invalid \\escape"

/-- String-body scanner after the opening quote, as `py_scanstring` with
`strict=True`: raw control characters are rejected, escapes decoded by
`decodeEsc`.  Fueled (each step consumes at least one character, so the
input length is enough fuel). -/
def parseStrAux : ℕ → List Char → List Char → Except String (String × List Char)
  | 0, _, _ => .error "out of fuel"
  | fuel + 1, acc, cs =>
      match cs with
      | [] => .error "Unterminated string starting at"
      | c :: rest =>
          if c = '"' then .ok (⟨acc.reverse⟩, rest)
          else if c = '\\' then
            match decodeEsc rest with
            | .ok (ch, rest2) => parseStrAux fuel (ch :: acc) rest2
            | .error e => .error e
          else if c.toNat < 0x20 then .error "Invalid control character"
          else parseStrAux fuel (c :: acc) rest

def parseStr (cs : List Char) : Except String (String × List Char) :=
  parseStrAux (cs.length + 1) [] cs

/-- Exact value of the decimal literal `mant × 10 ^ expo`, built with the
kernel-reducible core constructor `mkRat` (the typeclass power on ℚ does not
evaluate under `decide`). -/
def decToRat (mant : ℤ) (expo : ℤ) : ℚ :=
  match expo with
  | .ofNat n => mkRat (mant * ((10 ^ n : ℕ) : ℤ)) 1
  | .negSucc n => mkRat mant (10 ^ (n + 1))

/-- Exponent part of a number literal: after the `e`/`E`, an optional sign
and a digit run; if no digit follows, the whole exponent group is not taken
(regex backtracking). `cs3` is the input at the `e`, returned unconsumed in
that case. -/
def parseExpTail (r cs3 : List Char) : Bool × List Char × List Char :=
  match r with
  | [] => (false, [], cs3)
  | c2 :: r2 =>
      if c2 = '+' then
        match takeDigits r2 with
        | (ds, r3) => if ds = [] then (false, [], cs3) else (false, ds, r3)
      else if c2 = '-' then
        match takeDigits r2 with
        | (ds, r3) => if ds = [] then (false, [], cs3) else (true, ds, r3)
      else
        match takeDigits r with
        | (ds, r3) => if ds = [] then (false, [], cs3) else (false, ds, r3)

/-- Fraction group `(\.\d+)?`: taken only when a digit follows the dot,
otherwise nothing is consumed. -/
def parseFrac : List Char → List Char × List Char
  | [] => ([], [])
  | c :: r =>
      if c = '.' then
        match takeDigits r with
        | (ds, r2) => if ds = [] then ([], c :: r) else (ds, r2)
      else ([], c :: r)

/-- Exponent group `([eE][+-]?\d+)?`: taken only when the digits follow,
otherwise nothing is consumed. -/
def parseExp : List Char → Bool × List Char × List Char
  | [] => (false, [], [])
  | c :: r => if c = 'e' ∨ c = 'E' then parseExpTail r (c :: r) else (false, [], c :: r)

/-- Fraction and exponent groups plus value assembly, shared by the two
integer-part forms. -/
def parseNumTail (neg : Bool) (intDs : List Char) (cs2 : List Char) :
    Except String (ℚ × List Char) :=
  match parseFrac cs2 with
  | (fracDs, cs3) =>
      match parseExp cs3 with
      | (expSgn, expDs, cs4) =>
          let mant : ℤ := (if neg then -1 else 1) * (digitsVal (intDs ++ fracDs) : ℤ)
          let expo : ℤ :=
            (if expSgn then -(digitsVal expDs : ℤ) else (digitsVal expDs : ℤ))
              - (fracDs.length : ℤ)
          .ok (decToRat mant expo, cs4)

/-- Number parse following the CPython `json` regex
`(-?(?:0|[1-9]\d*))(\.\d+)?([eE][+-]?\d+)?`: the integer part is `0` alone
or a nonzero-led digit run; the fraction and exponent groups are taken only
when they fully match, exactly as regex backtracking leaves them otherwise. -/
def parseNum (cs : List Char) : Except String (ℚ × List Char) :=
  let sg : Bool × List Char :=
    match cs with
    | [] => (false, cs)
    | c :: r => if c = '-' then (true, r) else (false, cs)
  let neg := sg.1
  let cs1 := sg.2
  match cs1 with
  | [] => .error "Expecting value"
  | c :: r =>
      if c = '0' then parseNumTail neg ['0'] r
      else if isDigit c then
        match takeDigits r with
        | (ds, r2) => parseNumTail neg (c :: ds) r2
      else .error "Expecting value"

/-- Object members as parsed (in order, duplicates kept); built into a `JSON.obj`
through `objOfMembers`, which applies Python dict last-wins semantics. -/
def objOfMembers (ms : List (String × JSON)) : List (String × JSON)  :=
  ms.foldl (fun d kv => alSet d kv.1 kv.2) []

/-- Literal tail check: CPython compares a slice, `s[idx:idx+4] == "null"`. -/
def stripPre : List Char → List Char → Option (List Char)
  | [], cs => some cs
  | l :: ls, c :: cs => if c = l then stripPre ls cs else none
  | _ :: _, [] => none

/-- Case split on a character list (head/tail continuation style, so that
proofs can unfold it by rewriting). -/
def lcase {β : Type} (l : List Char) (a : β) (f : Char → List Char → β) : β :=
  match l with
  | [] => a
  | c :: r => f c r

/-- Sequencing on a parse result: errors propagate, a success feeds the
value and the remaining input to the continuation. -/
def pbind {α β : Type} (e : Except String (α × List Char))
    (f : α → List Char → Except String (β × List Char)) :
    Except String (β × List Char) :=
  match e with
  | .ok (a, r) => f a r
  | .error er => .error er

/-- Case split on an optional remainder (for literal matching). -/
def obind {α β : Type} (o : Option α) (f : α → β) (e : β) : β :=
  match o with
  | some a => f a
  | none => e

/-- Case split on a byte list. -/
def ncase {β : Type} (l : List Nat) (a : β) (f : Nat → List Nat → β) : β :=
  match l with
  | [] => a
  | b :: r => f b r

/-- Case split on an `Except` result. -/
def ecase {α β : Type} (e : Except String α) (f : α → β) (g : String → β) : β :=
  match e with
  | .ok a => f a
  | .error er => g er

mutual

/-- One JSON value: leading whitespace is skipped (CPython skips it at every
call site of `scan_once`), then the value is read off its first character
exactly as the `nextchar` tests of the CPython scanner do. -/
def parseVal (fuel : Nat) (cs : List Char) : Except String (JSON × List Char) :=
  match fuel with
  | 0 => .error "out of fuel"
  | fuel + 1 =>
    lcase (skipWs cs) (.error "Expecting value") (fun c r =>
      if c = 'n' then
        obind (stripPre ['u', 'l', 'l'] r) (fun r2 => .ok (.null, r2))
          (.error "Expecting value")
      else if c = 't' then
        obind (stripPre ['r', 'u', 'e'] r) (fun r2 => .ok (.bool true, r2))
          (.error "Expecting value")
      else if c = 'f' then
        obind (stripPre ['a', 'l', 's', 'e'] r) (fun r2 => .ok (.bool false, r2))
          (.error "Expecting value")
      else if c = '"' then
        pbind (parseStr r) (fun s r2 => .ok (.str s, r2))
      else if c = '[' then
        lcase (skipWs r) (.error "Expecting value") (fun c2 r2 =>
          if c2 = ']' then .ok (.arr [], r2)
          else pbind (parseElems fuel (c2 :: r2)) (fun es r3 => .ok (.arr es, r3)))
      else if c = '{' then
        lcase (skipWs r) (.error "Expecting property name enclosed in double quotes")
          (fun c2 r2 =>
            if c2 = '}' then .ok (.obj [], r2)
            else pbind (parseMembers fuel (c2 :: r2))
              (fun ms r3 => .ok (.obj (objOfMembers ms), r3)))
      else if c = '-' ∨ isDigit c then
        pbind (parseNum (c :: r)) (fun q r2 => .ok (.num q, r2))
      else .error "Expecting value")

/-- One-or-more comma-separated array elements up to the closing bracket
(the empty array was handled by the caller). -/
def parseElems (fuel : Nat) (cs : List Char) :
    Except String (List JSON × List Char) :=
  match fuel with
  | 0 => .error "out of fuel"
  | fuel + 1 =>
    pbind (parseVal fuel cs) (fun v r =>
      lcase (skipWs r) (.error "Expecting delimiter") (fun c2 r2 =>
        if c2 = ']' then .ok ([v], r2)
        else if c2 = ',' then
          pbind (parseElems fuel r2) (fun vs r3 => .ok (v :: vs, r3))
        else .error "Expecting delimiter"))

/-- One-or-more `"key": value` members up to the closing brace
(the empty object was handled by the caller). -/
def parseMembers (fuel : Nat) (cs : List Char) :
    Except String (List (String × JSON) × List Char) :=
  match fuel with
  | 0 => .error "out of fuel"
  | fuel + 1 =>
    lcase (skipWs cs) (.error "Expecting property name enclosed in double quotes")
      (fun c r =>
        if c = '"' then
          pbind (parseStr r) (fun key r1 =>
            lcase (skipWs r1) (.error "Expecting colon delimiter") (fun c2 r2 =>
              if c2 = ':' then
                pbind (parseVal fuel r2) (fun v r3 =>
                  lcase (skipWs r3) (.error "Expecting delimiter") (fun c3 r4 =>
                    if c3 = '}' then .ok ([(key, v)], r4)
                    else if c3 = ',' then
                      pbind (parseMembers fuel r4)
                        (fun ms r5 => .ok ((key, v) :: ms, r5))
                    else .error "Expecting delimiter"))
              else .error "Expecting colon delimiter"))
        else .error "Expecting property name enclosed in double quotes")

end

/-- The embedded `json.loads` on a character list: parse one value, then
require that only whitespace remains (else CPython raises `"Extra data"`).
The fuel `2 * length + 2` is enough for any input: every two recursive steps
consume at least one character. -/
def loadsL (cs : List Char) : Except String JSON :=
  match parseVal (2 * cs.length + 2) cs with
  | .error e => .error e
  | .ok (v, rest) => if skipWs rest = [] then .ok v else .error "Extra data"

/-- The embedded `json.loads` on a `String`. -/
def loads (s : String) : Except String JSON := loadsL s.data

/-! ### Command dispatch (`execute_command` / `_execute_command_internal`) -/

/-- A handler bound to the server: a synchronous function on a keyword
argument bag (`handler(**params)`), returning a JSON-serializable result or
raising an exception whose `str(e)` is the `Except.error` payload. -/
def Handler : Type := List (String × JSON) → Except String JSON

/-- The handler methods of `BlenderMCPServer` that the dispatch registry can
name.  Their bodies are external collaborators of the bridge; dispatch is
verified for every instantiation. -/
structure HandlerImpls where
  get_scene_info : Handler
  get_object_info : Handler
  execute_code : Handler
  get_polyhaven_status : Handler
  get_hyper3d_status : Handler
  import_model_from_path : Handler
  get_polyhaven_categories : Handler
  search_polyhaven_assets : Handler
  download_polyhaven_asset : Handler
  set_texture : Handler
  create_rodin_job : Handler
  poll_rodin_job_status : Handler
  import_generated_asset : Handler

/-- The two feature flags read from `bpy.context.scene` on every dispatch:
`blendermcp_use_polyhaven` and `blendermcp_use_hyper3d`. -/
structure Flags where
  use_polyhaven : Bool
  use_hyper3d : Bool

/-- The success envelope `{"status": "success", "result": result}`. -/
def successResp (result : JSON) : JSON :=
  .obj [("status", .str "success"), ("result", result)]

/-- The error envelope `{"status": "error", "message": message}`. -/
def errorResp (message : String) : JSON :=
  .obj [("status", .str "error"), ("message", .str message)]

/-- Python type name of a value, for `AttributeError` / `TypeError` texts
(`int` versus `float` is approximated from the denominator, since `JSON.num`
carries an exact rational). -/
def pyTypeName : JSON → String
  | .null => "NoneType"
  | .bool _ => "bool"
  | .num q => if q.den = 1 then "int" else "float"
  | .str _ => "str"
  | .arr _ => "list"
  | .obj _ => "dict"

/-- Python `f"{x}"` for the values that can reach the unknown-command message
(`None` → `"None"`, strings unquoted, booleans capitalized; the numeric case
approximates CPython float formatting). -/
def fstr : JSON → String
  | .null => "None"
  | .bool true => "True"
  | .bool false => "False"
  | .str s => s
  | .num q => toString q
  | .arr _ => "[...]"
  | .obj _ => "(...)"

/-- Python dict `handlers.get(cmd_type)`: a string key is looked up, an
unhashable key (`list`/`dict`) raises `TypeError`, any other value simply
matches no string key. -/
def dictGetHandler (d : List (String × Handler)) (k : JSON) :
    Except String (Option Handler) :=
  match k with
  | .str s => .ok (alGet d s)
  | .arr _ => .error "unhashable type: \x27list\x27"
  | .obj _ => .error "unhashable type: \x27dict\x27"
  | _ => .ok none

/-- Invocation `handler(**params)`: unpacking requires a mapping, then the
handler runs on the keyword bag. -/
def callKw (h : Handler) (params : JSON) : Except String JSON :=
  match params with
  | .obj kvs => h kvs
  | other =>
      .error ("argument after ** must be a mapping, not " ++ pyTypeName other)

/-- Always-available base handlers, in dict-literal order
(`_execute_command_internal`, `addon.py:1466`). -/
def baseHandlers (H : HandlerImpls) : List (String × Handler) :=
  [("get_scene_info", H.get_scene_info),
   ("get_object_info", H.get_object_info),
   ("execute_code", H.execute_code),
   ("get_polyhaven_status", H.get_polyhaven_status),
   ("get_hyper3d_status", H.get_hyper3d_status),
   ("import_model_from_path", H.import_model_from_path)]

/-- PolyHaven handler set, merged by `handlers.update(...)` when
`bpy.context.scene.blendermcp_use_polyhaven` is set. -/
def polyhavenHandlers (H : HandlerImpls) : List (String × Handler) :=
  [("get_polyhaven_categories", H.get_polyhaven_categories),
   ("search_polyhaven_assets", H.search_polyhaven_assets),
   ("download_polyhaven_asset", H.download_polyhaven_asset),
   ("set_texture", H.set_texture)]

/-- Hyper3D handler set, merged when
`bpy.context.scene.blendermcp_use_hyper3d` is set. -/
def hyper3dHandlers (H : HandlerImpls) : List (String × Handler) :=
  [("create_rodin_job", H.create_rodin_job),
   ("poll_rodin_job_status", H.poll_rodin_job_status),
   ("import_generated_asset", H.import_generated_asset)]

/-- Merge `d.update(extra)` on Python dicts. -/
def dictUpdate (d extra : List (String × Handler)) : List (String × Handler) :=
  extra.foldl (fun acc kv => alSet acc kv.1 kv.2) d

/-- The registry as `_execute_command_internal` builds it on every dispatch:
base handlers, then the optional sets merged in only while their flag is
enabled right now. -/
def registry (H : HandlerImpls) (fl : Flags) : List (String × Handler) :=
  let h := baseHandlers H
  let h := if fl.use_polyhaven then dictUpdate h (polyhavenHandlers H) else h
  if fl.use_hyper3d then dictUpdate h (hyper3dHandlers H) else h

/-- Embedding of `_execute_command_internal` (`addon.py:1459-1509`):
`cmd_type = command.get("type")` (an `AttributeError` on a non-dict command
is an `Except.error` here), the out-of-band early return for
`get_polyhaven_status` (which calls the method with NO arguments and lets
its exceptions propagate), then registry construction under the live flags,
lookup, and the guarded `handler(**params)` call. -/
def _execute_command_internal (H : HandlerImpls) (fl : Flags) (command : JSON) :
    Except String JSON :=
  match command with
  | .obj kvs =>
      let cmdType : JSON := (alGet kvs "type").getD .null
      let params : JSON := (alGet kvs "params").getD (.obj [])
      if cmdType = .str "get_polyhaven_status" then
        match H.get_polyhaven_status [] with
        | .ok r => .ok (successResp r)
        | .error e => .error e
      else
        match dictGetHandler (registry H fl) cmdType with
        | .error e => .error e
        | .ok (some handler) =>
            .ok (match callKw handler params with
                 | .ok result => successResp result
                 | .error e => errorResp e)
        | .ok none => .ok (errorResp ("Unknown command type: " ++ fstr cmdType))
  | other =>
      .error ("\x27" ++ pyTypeName other ++ "\x27 object has no attribute \x27get\x27")

/-- Embedding of `execute_command` (`addon.py:1449-1457`): the dispatch
boundary that converts any escaped exception into an error Response. -/
def execute_command (H : HandlerImpls) (fl : Flags) (command : JSON) : JSON :=
  match _execute_command_internal H fl command with
  | .ok response => response
  | .error e => errorResp e

/-- The Main-Thread Scheduler draining a queue of decoded commands in order:
each runs `execute_command` to completion before the next starts. -/
def drainAll (H : HandlerImpls) (fl : Flags) (cmds : List JSON) : List JSON :=
  cmds.map (execute_command H fl)

/-- Field access on a Response object. -/
def jGet (j : JSON) (key : String) : Option JSON :=
  match j with
  | .obj fields => alGet fields key
  | _ => none

/-! ### The reply wrapper scheduled per decoded command (`execute_wrapper`) -/

/-- Observable outcome of one `execute_wrapper` run: the Response writes it
attempts on the socket, the writes actually delivered (a raising `sendall`
delivers nothing), whether an exception escaped the wrapper, and whether the
wrapper closed the connection (its code contains no close). -/
structure WrapperRun where
  attempts : List JSON
  delivered : List JSON
  raised : Bool
  closed : Bool
deriving DecidableEq

/-- Embedding of `execute_wrapper` (`addon.py:1407-1433`).  `dumpsErr` is the
outcome of `json.dumps(response)` (`some e` when it raises, as it can for a
handler result the model does not restrict); `sendOk` / `sendErrOk` tell
whether each `client.sendall` call raises.  Every raise is caught: the first
send failure only logs, a dumps failure falls to the outer handler which
attempts exactly one error Response instead. -/
def execute_wrapper (H : HandlerImpls) (fl : Flags) (command : JSON)
    (dumpsErr : Option String) (sendOk sendErrOk : Bool) : WrapperRun :=
  let response := execute_command H fl command
  match dumpsErr with
  | none => ⟨[response], if sendOk then [response] else [], false, false⟩
  | some e => ⟨[errorResp e], if sendErrOk then [errorResp e] else [], false, false⟩

/-- All Response writes attempted over one connection, given the decoded
commands in order together with their serialization/send outcomes. -/
def clientReplies (H : HandlerImpls) (fl : Flags)
    (items : List (JSON × Option String × Bool × Bool)) : List JSON :=
  (items.map (fun it =>
    (execute_wrapper H fl it.1 it.2.1 it.2.2.1 it.2.2.2).attempts)).flatten

/-! ### Server lifecycle (`BlenderMCPServer.start` / `stop`) -/

/-- The lifecycle fields of `BlenderMCPServer`: the `running` flag, the
listening socket and the accept-loop thread (abstracted to ids; `close` and
`join` failures are swallowed by the code and do not affect these fields). -/
structure ServerState where
  running : Bool
  socket : Option Nat
  server_thread : Option Nat
deriving DecidableEq

/-- The state of a freshly constructed server (`__init__`). -/
def initialServer : ServerState := ⟨false, none, none⟩

/-- Embedding of `stop` (`addon.py:1331-1351`): clear `running`, close and
drop the socket if any, join (bounded) and drop the thread if any; every
exception along the way is swallowed. -/
def BlenderMCPServer.stop (s : ServerState) : ServerState :=
  let s1 : ServerState := ⟨false, s.socket, s.server_thread⟩
  let s2 : ServerState :=
    if s1.socket.isSome then ⟨s1.running, none, s1.server_thread⟩ else s1
  if s2.server_thread.isSome then ⟨s2.running, s2.socket, none⟩ else s2

/-- Embedding of `start` (`addon.py:1307-1329`): a no-op when already
running; otherwise set `running`, then bind and spawn the accept thread
(`bindOk`), and on failure fall into `self.stop()` with the partially
initialised state (socket created, bind raised). -/
def BlenderMCPServer.start (s : ServerState) (bindOk : Bool)
    (sockId thId : Nat) : ServerState :=
  if s.running then s
  else if bindOk then ⟨true, some sockId, some thId⟩
  else BlenderMCPServer.stop ⟨true, some sockId, s.server_thread⟩

/-! ### The scene model and `get_scene_info` -/

/-- What `get_scene_info` reads from a scene object: name, `obj.type`, and
the three location coordinates (exact rationals standing for the floats). -/
structure SceneObject where
  name : String
  otype : String
  locx : ℚ
  locy : ℚ
  locz : ℚ

/-- What `get_scene_info` reads from `bpy.context.scene` / `bpy.data`. -/
structure BlenderScene where
  name : String
  objects : List SceneObject
  materialsCount : ℕ

/-- Subtraction on ℚ, spelled through `mkRat` (the typeclass operations on ℚ
are irreducible to `decide`). -/
def qsub (a b : ℚ) : ℚ := mkRat (a.num * b.den - b.num * a.den) (a.den * b.den)

/-- Multiplication on ℚ, spelled through `mkRat`. -/
def qmul (a b : ℚ) : ℚ := mkRat (a.num * b.num) (a.den * b.den)

/-- Python `round` to the nearest integer with banker\x27s rounding
(ties to even), on the exact rational value. -/
def pyRound (q : ℚ) : ℤ :=
  let f := q.floor
  let r := qsub q (mkRat f 1)
  if r < mkRat 1 2 then f
  else if mkRat 1 2 < r then f + 1
  else if f % 2 = 0 then f else f + 1

/-- Python `round(x, 2)`. -/
def round2 (q : ℚ) : ℚ := mkRat (pyRound (qmul q (mkRat 100 1))) 100

/-- One entry of the `"objects"` list built by `get_scene_info`
(`addon.py:1531-1541`). -/
def objInfoJson (o : SceneObject) : JSON :=
  .obj [("name", .str o.name),
        ("type", .str o.otype),
        ("location", .arr [.num (round2 o.locx), .num (round2 o.locy),
                           .num (round2 o.locz)])]

/-- The dict returned by `get_scene_info` (`addon.py:1511-1545`): scene name,
total object count, the first (at most) 10 objects in scene order, and the
material datablock count, in dict-literal insertion order. -/
def sceneInfoJson (sc : BlenderScene) : JSON :=
  .obj [("name", .str sc.name),
        ("object_count", .num (mkRat sc.objects.length 1)),
        ("objects", .arr ((sc.objects.take 10).map objInfoJson)),
        ("materials_count", .num (mkRat sc.materialsCount 1))]

/-- The bound method `self.get_scene_info` as a `Handler`: it accepts no
keyword arguments (its Python signature is `(self)`), and on a normal call
returns the scene info dict. -/
def get_scene_info (sc : BlenderScene) : Handler := fun kvs =>
  match kvs with
  | [] => .ok (sceneInfoJson sc)
  | (k, _) :: _ =>
      .error ("BlenderMCPServer.get_scene_info() got an unexpected keyword argument \x27"
        ++ k ++ "\x27")

/-! ### The per-connection framing buffer (`_handle_client`) -/

/-- The observable outcome of one `recv` iteration of `_handle_client`
(`addon.py:1395-1441`) on the accumulated buffer: `inc` — `json.loads`
raised `JSONDecodeError`, the (appended-to) buffer is retained and no
command is produced; `dec` — a command was decoded and the buffer reset to
`b""`; `fatal` — `buffer.decode("utf-8")` raised `UnicodeDecodeError`,
which is not a `JSONDecodeError`, so the outer handler breaks the loop and
the connection is closed. -/
inductive FeedOut where
  | inc (buf : List Nat)
  | dec (v : JSON) (buf : List Nat)
  | fatal
deriving DecidableEq

/-- A continuation byte `0x80..0xBF`. -/
def isCont (b : Nat) : Prop := 0x80 ≤ b ∧ b < 0xC0

instance (b : Nat) : Decidable (isCont b) := by unfold isCont; infer_instance

/-- Strict UTF-8 decode of one scalar value: rejects stray continuation
bytes, overlong forms, surrogates and values beyond U+10FFFF, as Python
`bytes.decode("utf-8")` does. -/
def utf8DecodeChar : List Nat → Option (Nat × List Nat)
  | [] => none
  | b1 :: rest =>
    if b1 < 0x80 then some (b1, rest)
    else if b1 < 0xC2 then none
    else if b1 < 0xE0 then
      ncase rest none (fun b2 r2 =>
        if isCont b2 then some ((b1 - 0xC0) * 64 + (b2 - 0x80), r2) else none)
    else if b1 < 0xF0 then
      ncase rest none (fun b2 r2 => ncase r2 none (fun b3 r3 =>
        if isCont b2 ∧ isCont b3 ∧ (b1 = 0xE0 → 0xA0 ≤ b2) ∧ (b1 = 0xED → b2 < 0xA0) then
          some ((b1 - 0xE0) * 4096 + (b2 - 0x80) * 64 + (b3 - 0x80), r3)
        else none))
    else if b1 < 0xF5 then
      ncase rest none (fun b2 r2 => ncase r2 none (fun b3 r3 => ncase r3 none (fun b4 r4 =>
        if isCont b2 ∧ isCont b3 ∧ isCont b4 ∧ (b1 = 0xF0 → 0x90 ≤ b2) ∧ (b1 = 0xF4 → b2 < 0x90) then
          some ((b1 - 0xF0) * 262144 + (b2 - 0x80) * 4096 + (b3 - 0x80) * 64 + (b4 - 0x80), r4)
        else none)))
    else none

/-- Fueled decoding loop (each step consumes at least one byte, so the input
length is enough fuel). -/
def utf8DecodeL : Nat → List Nat → Option (List Char)
  | _, [] => some []
  | 0, _ :: _ => none
  | fuel + 1, b :: l =>
      obind (utf8DecodeChar (b :: l))
        (fun p => (utf8DecodeL fuel p.2).map (fun cs => Char.ofNat p.1 :: cs)) none

/-- Python `bytes.decode("utf-8")`. -/
def utf8Decode (l : List Nat) : Option (List Char) := utf8DecodeL l.length l

/-- UTF-8 encoding of one scalar value. -/
def utf8EncodeChar (c : Char) : List Nat :=
  if c.toNat < 0x80 then [c.toNat]
  else if c.toNat < 0x800 then [0xC0 + c.toNat / 64, 0x80 + c.toNat % 64]
  else if c.toNat < 0x10000 then
    [0xE0 + c.toNat / 4096, 0x80 + c.toNat / 64 % 64, 0x80 + c.toNat % 64]
  else
    [0xF0 + c.toNat / 262144, 0x80 + c.toNat / 4096 % 64,
      0x80 + c.toNat / 64 % 64, 0x80 + c.toNat % 64]

/-- UTF-8 encoding of a character list. -/
def utf8Encode (s : List Char) : List Nat := (s.map utf8EncodeChar).flatten

/-- One framing-buffer step of `_handle_client`: append the received chunk,
decode the whole buffer as UTF-8 (a decode error is fatal to the
connection), try `json.loads` on the whole text, and clear the buffer
exactly on a successful parse. -/
def feedB (buf chunk : List Nat) : FeedOut :=
  obind (utf8Decode (buf ++ chunk))
    (fun cs => ecase (loadsL cs) (fun v => .dec v []) (fun _ => .inc (buf ++ chunk)))
    .fatal

/-- Case split on a framing outcome (continuation style, so that proofs can
unfold it by rewriting). -/
def fcase {β : Type} (x : FeedOut) (fi : List Nat → β) (fd : JSON → List Nat → β)
    (ff : β) : β :=
  match x with
  | .inc b => fi b
  | .dec v b => fd v b
  | .fatal => ff

/-- The framing loop over a sequence of received chunks, recording each
iteration\x27s outcome; a fatal iteration breaks the loop. -/
def feedTrace (buf : List Nat) : List (List Nat) → List FeedOut
  | [] => []
  | c :: rest =>
      fcase (feedB buf c)
        (fun b => .inc b :: feedTrace b rest)
        (fun v b2 => .dec v b2 :: feedTrace b2 rest)
        [.fatal]

/-! ### Dispatch lemmas -/

/-- A well-formed wire command `{"type": name, "params": params}`. -/
def cmdJ (name : String) (params : JSON) : JSON :=
  .obj [("type", .str name), ("params", params)]

/-- The `get_polyhaven_status` entry sits in the always-available base
handlers, whatever the flags are. -/
theorem registry_gps (H : HandlerImpls) (fl : Flags) :
    alGet (registry H fl) "get_polyhaven_status" = some H.get_polyhaven_status := by
  obtain ⟨p, h3⟩ := fl
  cases p <;> cases h3 <;> rfl

/-- The `get_scene_info` entry sits in the base handlers, whatever the
flags are. -/
theorem registry_gsi (H : HandlerImpls) (fl : Flags) :
    alGet (registry H fl) "get_scene_info" = some H.get_scene_info := by
  obtain ⟨p, h3⟩ := fl
  cases p <;> cases h3 <;> rfl

/-- Dispatch of a command that resolves a handler other than the
short-circuited `get_polyhaven_status`: the handler is called with the
params unpacked, success wrapped, a raise converted to an error Response. -/
theorem dispatch_handler (H : HandlerImpls) (fl : Flags)
    (kvs : List (String × JSON)) (name : String) (h : Handler)
    (hty : alGet kvs "type" = some (.str name))
    (hne : name ≠ "get_polyhaven_status")
    (hl : alGet (registry H fl) name = some h) :
    execute_command H fl (.obj kvs) =
      match callKw h ((alGet kvs "params").getD (.obj [])) with
      | .ok result => successResp result
      | .error e => errorResp e := by
  simp only [execute_command, _execute_command_internal, hty, Option.getD_some]
  rw [if_neg (by simp [hne])]
  simp only [dictGetHandler, hl]

/-- Dispatch of a command whose name resolves no handler in the registry
built under the current flags: the structured unknown-command Response. -/
theorem dispatch_unknown (H : HandlerImpls) (fl : Flags)
    (kvs : List (String × JSON)) (name : String)
    (hty : alGet kvs "type" = some (.str name))
    (hl : alGet (registry H fl) name = none) :
    execute_command H fl (.obj kvs) =
      errorResp ("Unknown command type: " ++ name) := by
  have hne : name ≠ "get_polyhaven_status" := by
    intro he
    rw [he, registry_gps] at hl
    cases hl
  simp only [execute_command, _execute_command_internal, hty, Option.getD_some]
  rw [if_neg (by simp [hne])]
  simp only [dictGetHandler, hl, fstr]

/-! ### Sample handler instantiation (for concrete runs of the dispatcher) -/

/-- A concrete `HandlerImpls` for concrete dispatch runs.  The shapes mirror
the Python methods where a claim depends on them: `get_polyhaven_status`
takes no keyword arguments (its signature is `(self)`) and returns the
status dict, so calling it with any keyword raises a `TypeError`;
`get_object_info` raises `ValueError` for a missing object, as on an empty
scene. -/
def sampleScene : BlenderScene :=
  ⟨"Scene", [⟨"Cube", "MESH", mkRat 5 4, mkRat (-1) 3, mkRat 0 1⟩], 2⟩

def sampleHandlers : HandlerImpls :=
  ⟨get_scene_info sampleScene,
   fun _ => .error "Object not found: Cube",
   fun _ => .ok (.obj [("executed", .bool true)]),
   fun kvs =>
     match kvs with
     | [] => .ok (.obj [("enabled", .bool false), ("message", .str "Status")])
     | (k, _) :: _ =>
         .error ("BlenderMCPServer.get_polyhaven_status() got an unexpected keyword argument \x27"
           ++ k ++ "\x27"),
   fun _ => .ok (.obj [("enabled", .bool false), ("message", .str "Status")]),
   fun _ => .ok (.str "imported"),
   fun _ => .ok (.obj [("hdris", .arr [])]),
   fun _ => .ok (.arr []),
   fun _ => .ok (.str "downloaded"),
   fun _ => .ok (.str "texture set"),
   fun _ => .ok (.obj [("submit_time", .str "now")]),
   fun _ => .ok (.str "Done"),
   fun _ => .ok (.str "asset imported")⟩

/-! ### Claims about dispatch -/

/-- Claim C1 (amended): for every command whose type is not the
short-circuited `get_polyhaven_status` name and whose resolved handler
raises when invoked with the command\x27s params, dispatch returns an error
Response carrying exactly the exception\x27s message, the exception never
escapes `execute_command` (it is total), and a subsequently dispatched
command still executes normally. -/
theorem c1_handler_exception (H : HandlerImpls) (fl : Flags)
    (kvs : List (String × JSON)) (name : String) (h : Handler) (msg : String)
    (cmd2 : JSON)
    (hty : alGet kvs "type" = some (.str name))
    (hne : name ≠ "get_polyhaven_status")
    (hl : alGet (registry H fl) name = some h)
    (hraise : callKw h ((alGet kvs "params").getD (.obj [])) = .error msg) :
    execute_command H fl (.obj kvs) = errorResp msg
    ∧ drainAll H fl [.obj kvs, cmd2] = [errorResp msg, execute_command H fl cmd2] := by
  have h1 := dispatch_handler H fl kvs name h hty hne hl
  rw [hraise] at h1
  exact ⟨h1, by simp [drainAll, h1]⟩

/-- Witness for C1: `get_object_info` on a missing object raises
`ValueError("Object not found: Cube")`; dispatch converts it, and the next
queued `get_scene_info` command still runs. -/
theorem c1_witness :
    execute_command sampleHandlers ⟨false, false⟩
        (.obj [("type", .str "get_object_info"), ("params", .obj [("name", .str "Cube")])])
      = errorResp "Object not found: Cube"
    ∧ drainAll sampleHandlers ⟨false, false⟩
        [.obj [("type", .str "get_object_info"), ("params", .obj [("name", .str "Cube")])],
         cmdJ "get_scene_info" (.obj [])]
      = [errorResp "Object not found: Cube",
         execute_command sampleHandlers ⟨false, false⟩ (cmdJ "get_scene_info" (.obj []))] :=
  c1_handler_exception sampleHandlers ⟨false, false⟩ _ "get_object_info"
    sampleHandlers.get_object_info "Object not found: Cube" _
    rfl (by decide) rfl rfl

/-- Counterexample to C1 as stated: for
`{"type": "get_polyhaven_status", "params": {"x": true}}` the registry
resolves the `get_polyhaven_status` handler and invoking it with the
command\x27s params raises a `TypeError`, yet dispatch short-circuits
before the registry, calls the method with no arguments, and returns a
success Response — not the error Response the claim requires. -/
theorem c1_counterexample :
    alGet (registry sampleHandlers ⟨false, false⟩) "get_polyhaven_status"
      = some sampleHandlers.get_polyhaven_status
    ∧ callKw sampleHandlers.get_polyhaven_status (.obj [("x", .bool true)])
      = .error "BlenderMCPServer.get_polyhaven_status() got an unexpected keyword argument \x27x\x27"
    ∧ execute_command sampleHandlers ⟨false, false⟩
        (.obj [("type", .str "get_polyhaven_status"), ("params", .obj [("x", .bool true)])])
      = successResp (.obj [("enabled", .bool false), ("message", .str "Status")])
    ∧ ∀ m, successResp (.obj [("enabled", .bool false), ("message", .str "Status")]) ≠ errorResp m := by
  refine ⟨rfl, rfl, by decide, ?_⟩
  intro m hm
  simp [successResp, errorResp] at hm

/-- Claim C2: dispatching a command whose name matches no handler in the
registry built at dispatch time yields the structured Response
`{"status": "error", "message": "Unknown command type: <name>"}`; dispatch
never raises (it is a total function into Response objects), and the reply
wrapper neither raises nor closes the connection for it. -/
theorem c2_unknown_command (H : HandlerImpls) (fl : Flags)
    (kvs : List (String × JSON)) (name : String)
    (dumpsErr : Option String) (s1 s2 : Bool)
    (hty : alGet kvs "type" = some (.str name))
    (hl : alGet (registry H fl) name = none) :
    execute_command H fl (.obj kvs) = errorResp ("Unknown command type: " ++ name)
    ∧ (execute_wrapper H fl (.obj kvs) dumpsErr s1 s2).raised = false
    ∧ (execute_wrapper H fl (.obj kvs) dumpsErr s1 s2).closed = false := by
  refine ⟨dispatch_unknown H fl kvs name hty hl, ?_, ?_⟩ <;>
    cases dumpsErr <;> rfl

/-- Witness for C2, the spec scenario: `{"type": "totally_unknown", "params": {}}`
yields `{"status": "error", "message": "Unknown command type: totally_unknown"}`. -/
theorem c2_witness :
    execute_command sampleHandlers ⟨false, false⟩
        (.obj [("type", .str "totally_unknown"), ("params", .obj [])])
      = errorResp "Unknown command type: totally_unknown" :=
  (c2_unknown_command sampleHandlers ⟨false, false⟩
    [("type", .str "totally_unknown"), ("params", .obj [])] "totally_unknown"
    none true true rfl rfl).1

/-- Success path of dispatch for a name resolved out of an optional set:
if the live registry agrees with the set on the name, and the set\x27s
handler accepts the params, dispatch wraps its result in a success
Response. -/
theorem dispatch_optional_ok (H : HandlerImpls) (pv : JSON)
    (kvs : List (String × JSON)) (fl : Flags) (name : String)
    (hset : List (String × Handler)) (hp : pv = .obj kvs)
    (hne : name ≠ "get_polyhaven_status")
    (hl : alGet (registry H fl) name = alGet hset name) :
    ∀ h v, alGet hset name = some h → h kvs = .ok v →
      execute_command H fl (cmdJ name pv) = successResp v := by
  intro h v hph hv
  have hl2 : alGet (registry H fl) name = some h := by rw [hl, hph]
  have hd := dispatch_handler H fl [("type", .str name), ("params", pv)] name h
    rfl hne hl2
  rw [show cmdJ name pv = JSON.obj [("type", .str name), ("params", pv)] from rfl,
    hd]
  have hpar : alGet [("type", JSON.str name), ("params", pv)] "params" = some pv := by
    simp [alGet]
  rw [hpar]
  simp [callKw, hp, hv]

/-- Claim C4: a PolyHaven-set command dispatched with
`blendermcp_use_polyhaven` off (or a Hyper3D-set command with
`blendermcp_use_hyper3d` off) produces exactly the unknown-command error
Response that a nonexistent name produces; with the flag on, the identical
request resolves to the set\x27s handler and succeeds given params the
handler accepts.  The registry is rebuilt from the flags on every dispatch,
so the very same command value behaves per the flag passed at that
dispatch. -/
theorem c4_feature_gating (H : HandlerImpls) (pv : JSON)
    (kvs : List (String × JSON)) (b : Bool) (hp : pv = .obj kvs) :
    (∀ name ∈ ["get_polyhaven_categories", "search_polyhaven_assets",
               "download_polyhaven_asset", "set_texture"],
        execute_command H ⟨false, b⟩ (cmdJ name pv)
          = errorResp ("Unknown command type: " ++ name)
        ∧ alGet (registry H ⟨true, b⟩) name = alGet (polyhavenHandlers H) name
        ∧ ∀ h v, alGet (polyhavenHandlers H) name = some h → h kvs = .ok v →
            execute_command H ⟨true, b⟩ (cmdJ name pv) = successResp v)
    ∧ (∀ name ∈ ["create_rodin_job", "poll_rodin_job_status",
                 "import_generated_asset"],
        execute_command H ⟨b, false⟩ (cmdJ name pv)
          = errorResp ("Unknown command type: " ++ name)
        ∧ alGet (registry H ⟨b, true⟩) name = alGet (hyper3dHandlers H) name
        ∧ ∀ h v, alGet (hyper3dHandlers H) name = some h → h kvs = .ok v →
            execute_command H ⟨b, true⟩ (cmdJ name pv) = successResp v)
    ∧ (∀ fl name, alGet (registry H fl) name = none →
        execute_command H fl (cmdJ name pv)
          = errorResp ("Unknown command type: " ++ name)) := by
  refine ⟨?_, ?_, ?_⟩
  · intro name hmem
    fin_cases hmem <;>
      exact ⟨dispatch_unknown H ⟨false, b⟩ _ _ rfl (by cases b <;> rfl),
        by cases b <;> rfl,
        dispatch_optional_ok H pv kvs ⟨true, b⟩ _ (polyhavenHandlers H) hp
          (by decide) (by cases b <;> rfl)⟩
  · intro name hmem
    fin_cases hmem <;>
      exact ⟨dispatch_unknown H ⟨b, false⟩ _ _ rfl (by cases b <;> rfl),
        by cases b <;> rfl,
        dispatch_optional_ok H pv kvs ⟨b, true⟩ _ (hyper3dHandlers H) hp
          (by decide) (by cases b <;> rfl)⟩
  · intro fl name hl
    exact dispatch_unknown H fl _ _ rfl hl

/-- Witness for C4: with the flag off, `set_texture` is the same unknown
error as a nonexistent name; with it on, the identical request succeeds. -/
theorem c4_witness :
    execute_command sampleHandlers ⟨false, false⟩ (cmdJ "set_texture" (.obj []))
      = errorResp "Unknown command type: set_texture"
    ∧ execute_command sampleHandlers ⟨true, false⟩ (cmdJ "set_texture" (.obj []))
      = successResp (.str "texture set") := by
  have hc := c4_feature_gating sampleHandlers (.obj []) [] false rfl
  have h1 := hc.1 "set_texture" (by simp)
  exact ⟨h1.1, h1.2.2 sampleHandlers.set_texture (.str "texture set") rfl rfl⟩

/-- Every return path of `_execute_command_internal` yields a success or an
error envelope, or raises. -/
theorem internal_shape (H : HandlerImpls) (fl : Flags) (cmd : JSON) :
    (∃ v, _execute_command_internal H fl cmd = .ok (successResp v))
    ∨ (∃ m, _execute_command_internal H fl cmd = .ok (errorResp m))
    ∨ (∃ e, _execute_command_internal H fl cmd = .error e) := by
  cases cmd with
  | obj kvs =>
      simp only [_execute_command_internal]
      by_cases hgps : ((alGet kvs "type").getD .null) = .str "get_polyhaven_status"
      · rw [if_pos hgps]
        cases H.get_polyhaven_status [] with
        | ok r => exact .inl ⟨r, rfl⟩
        | error e => exact .inr (.inr ⟨e, rfl⟩)
      · rw [if_neg hgps]
        cases hdg : dictGetHandler (registry H fl) ((alGet kvs "type").getD .null) with
        | error e => exact .inr (.inr ⟨e, rfl⟩)
        | ok oh =>
            cases oh with
            | some h =>
                cases hc : callKw h ((alGet kvs "params").getD (.obj [])) with
                | ok r => exact .inl ⟨r, by simp only [hc]⟩
                | error e => exact .inr (.inl ⟨e, by simp only [hc]⟩)
            | none => exact .inr (.inl ⟨_, rfl⟩)
  | null => exact .inr (.inr ⟨_, rfl⟩)
  | bool b => exact .inr (.inr ⟨_, rfl⟩)
  | num q => exact .inr (.inr ⟨_, rfl⟩)
  | str st => exact .inr (.inr ⟨_, rfl⟩)
  | arr es => exact .inr (.inr ⟨_, rfl⟩)

/-- Every dispatch result is one of the two envelopes. -/
theorem exec_shape (H : HandlerImpls) (fl : Flags) (cmd : JSON) :
    (∃ v, execute_command H fl cmd = successResp v)
    ∨ (∃ m, execute_command H fl cmd = errorResp m) := by
  rcases internal_shape H fl cmd with ⟨v, hv⟩ | ⟨m, hm⟩ | ⟨e, he⟩
  · exact .inl ⟨v, by simp only [execute_command, hv]⟩
  · exact .inr ⟨m, by simp only [execute_command, hm]⟩
  · exact .inr ⟨e, by simp only [execute_command, he]⟩

/-- Claim C6: on every return path, for every input command, the dispatch
Response has `status` equal to `"success"` or `"error"`, carries `result`
exactly when the status is `"success"`, and carries `message` exactly when
the status is `"error"`. -/
theorem c6_response_envelope (H : HandlerImpls) (fl : Flags) (cmd : JSON) :
    (jGet (execute_command H fl cmd) "status" = some (.str "success")
      ∧ (∃ v, jGet (execute_command H fl cmd) "result" = some v)
      ∧ jGet (execute_command H fl cmd) "message" = none)
    ∨ (jGet (execute_command H fl cmd) "status" = some (.str "error")
      ∧ (∃ m, jGet (execute_command H fl cmd) "message" = some (.str m))
      ∧ jGet (execute_command H fl cmd) "result" = none) := by
  rcases exec_shape H fl cmd with ⟨v, hv⟩ | ⟨m, hm⟩
  · rw [hv]
    exact .inl ⟨rfl, ⟨v, rfl⟩, rfl⟩
  · rw [hm]
    exact .inr ⟨rfl, ⟨m, rfl⟩, rfl⟩

/-- Claim C5: per decoded command, the reply wrapper performs exactly one
Response write attempt (the dispatch Response, or — if serializing it raised
— the error Response built from that exception), never raises, never writes
twice even when a send fails, and over a connection the writes are exactly
one per decoded command. -/
theorem c5_one_write_per_command (H : HandlerImpls) (fl : Flags) (cmd : JSON)
    (dumpsErr : Option String) (sOk seOk : Bool)
    (items : List (JSON × Option String × Bool × Bool)) :
    (execute_wrapper H fl cmd dumpsErr sOk seOk).attempts.length = 1
    ∧ (execute_wrapper H fl cmd dumpsErr sOk seOk).raised = false
    ∧ (execute_wrapper H fl cmd dumpsErr sOk seOk).closed = false
    ∧ (execute_wrapper H fl cmd dumpsErr sOk seOk).delivered.length ≤ 1
    ∧ ((execute_wrapper H fl cmd dumpsErr sOk seOk).attempts
        = [execute_command H fl cmd]
        ∨ ∃ e, dumpsErr = some e
            ∧ (execute_wrapper H fl cmd dumpsErr sOk seOk).attempts = [errorResp e])
    ∧ (clientReplies H fl items).length = items.length := by
  refine ⟨?_, ?_, ?_, ?_, ?_, ?_⟩
  · cases dumpsErr <;> rfl
  · cases dumpsErr <;> rfl
  · cases dumpsErr <;> rfl
  · cases dumpsErr <;> simp [execute_wrapper] <;> split <;> simp
  · cases dumpsErr with
    | none => exact .inl rfl
    | some e => exact .inr ⟨e, rfl, rfl⟩
  · induction items with
    | nil => rfl
    | cons it rest ih =>
        obtain ⟨c, de, s1, s2⟩ := it
        simp only [clientReplies, List.map_cons, List.flatten_cons,
          List.length_append, List.length_cons] at ih ⊢
        rw [ih]
        cases de <;> simp [execute_wrapper, Nat.add_comm]

/-- Claim C8: `stop` is idempotent and safe without a prior `start` — any
number of `stop` calls leaves `running = false`, `socket = None`,
`server_thread = None` — from which `start` succeeds again; and `start`
while already running changes no state. -/
theorem c8_lifecycle (s : ServerState) (b : Bool) (i t : Nat)
    (hrun : s.running = true) :
    BlenderMCPServer.stop (BlenderMCPServer.stop s) = initialServer
    ∧ BlenderMCPServer.stop initialServer = initialServer
    ∧ initialServer.running = false
    ∧ initialServer.socket = none
    ∧ initialServer.server_thread = none
    ∧ BlenderMCPServer.start initialServer true i t = ⟨true, some i, some t⟩
    ∧ BlenderMCPServer.stop s = initialServer
    ∧ BlenderMCPServer.start s b i t = s := by
  obtain ⟨r, sock, th⟩ := s
  simp only at hrun
  subst hrun
  refine ⟨?_, rfl, rfl, rfl, rfl, rfl, ?_, ?_⟩
  · cases sock <;> cases th <;> rfl
  · cases sock <;> cases th <;> rfl
  · rfl

/-- Witness for C8 at a started server state. -/
theorem c8_witness :
    BlenderMCPServer.stop (BlenderMCPServer.stop ⟨true, some 7, some 9⟩)
      = initialServer
    ∧ BlenderMCPServer.stop initialServer = initialServer
    ∧ BlenderMCPServer.start initialServer true 7 9 = ⟨true, some 7, some 9⟩
    ∧ BlenderMCPServer.start ⟨true, some 7, some 9⟩ false 1 2
      = ⟨true, some 7, some 9⟩ := by
  have hc := c8_lifecycle ⟨true, some 7, some 9⟩ false 1 2 rfl
  exact ⟨hc.1, hc.2.1, c8_lifecycle ⟨true, some 0, some 0⟩ false 7 9 rfl
    |>.2.2.2.2.2.1, hc.2.2.2.2.2.2.2⟩

/-- Claim C9: dispatching `{"type": "get_scene_info", "params": {}}` against
a server whose `get_scene_info` is bound to scene `sc` returns a success
Response whose result carries the scene name, `object_count` equal to the
number of scene objects, `materials_count`, and an `objects` list of exactly
`min (object count) 10` entries — the first ten objects in scene order —
each with `name`, `type`, and a 3-element `location` rounded to 2 decimal
places. -/
theorem c9_get_scene_info (sc : BlenderScene) (H : HandlerImpls) (fl : Flags)
    (hh : H.get_scene_info = get_scene_info sc) :
    execute_command H fl (cmdJ "get_scene_info" (.obj []))
      = successResp (sceneInfoJson sc)
    ∧ jGet (sceneInfoJson sc) "name" = some (.str sc.name)
    ∧ jGet (sceneInfoJson sc) "object_count"
      = some (.num (mkRat sc.objects.length 1))
    ∧ jGet (sceneInfoJson sc) "materials_count"
      = some (.num (mkRat sc.materialsCount 1))
    ∧ jGet (sceneInfoJson sc) "objects"
      = some (.arr ((sc.objects.take 10).map objInfoJson))
    ∧ ((sc.objects.take 10).map objInfoJson).length = min sc.objects.length 10
    ∧ ∀ o : SceneObject,
        jGet (objInfoJson o) "name" = some (.str o.name)
        ∧ jGet (objInfoJson o) "type" = some (.str o.otype)
        ∧ jGet (objInfoJson o) "location"
          = some (.arr [.num (round2 o.locx), .num (round2 o.locy),
                        .num (round2 o.locz)]) := by
  refine ⟨?_, rfl, rfl, rfl, rfl, by simp [Nat.min_comm], fun o => ⟨rfl, rfl, rfl⟩⟩
  have hd := dispatch_handler H fl [("type", .str "get_scene_info"), ("params", .obj [])]
    "get_scene_info" H.get_scene_info rfl (by decide) (registry_gsi H fl)
  rw [show cmdJ "get_scene_info" (.obj []) =
    JSON.obj [("type", .str "get_scene_info"), ("params", .obj [])] from rfl, hd, hh]
  rfl

/-- Witness for C9 on a one-object scene (location `(1.25, -1/3, 0)` rounds
to `[1.25, -0.33, 0.0]`). -/
theorem c9_witness :
    execute_command sampleHandlers ⟨false, false⟩ (cmdJ "get_scene_info" (.obj []))
      = successResp (sceneInfoJson sampleScene)
    ∧ sceneInfoJson sampleScene
      = .obj [("name", .str "Scene"),
              ("object_count", .num 1),
              ("objects", .arr [.obj [("name", .str "Cube"), ("type", .str "MESH"),
                ("location", .arr [.num (mkRat 125 100), .num (mkRat (-33) 100),
                                   .num 0])]]),
              ("materials_count", .num 2)] :=
  ⟨(c9_get_scene_info sampleScene sampleHandlers ⟨false, false⟩ rfl).1, by decide⟩

/-- Claim C10: `execute_command` totalizes every parsed JSON value — a dict
without `"type"` dispatches as the unknown command `None`, a dict without
`"params"` invokes its resolved handler with zero keyword arguments, and a
non-dict command becomes an `AttributeError` error Response instead of an
uncaught exception. -/
theorem c10_malformed_commands (H : HandlerImpls) (fl : Flags) :
    (∀ kvs, alGet kvs "type" = none →
        execute_command H fl (.obj kvs) = errorResp "Unknown command type: None")
    ∧ (∀ kvs name h, alGet kvs "type" = some (.str name) →
        alGet kvs "params" = none →
        alGet (registry H fl) name = some h →
        execute_command H fl (.obj kvs)
          = match h [] with
            | .ok v => successResp v
            | .error e => errorResp e)
    ∧ (∀ cmd, (∀ kvs, cmd ≠ .obj kvs) →
        execute_command H fl cmd
          = errorResp ("\x27" ++ pyTypeName cmd
              ++ "\x27 object has no attribute \x27get\x27")) := by
  refine ⟨?_, ?_, ?_⟩
  · intro kvs hty
    simp only [execute_command, _execute_command_internal, hty, Option.getD_none]
    rw [if_neg (by simp)]
    simp only [dictGetHandler, fstr]
    rfl
  · intro kvs name h hty hpar hl
    by_cases hg : name = "get_polyhaven_status"
    · subst hg
      rw [registry_gps] at hl
      cases hl
      simp only [execute_command, _execute_command_internal, hty, hpar,
        Option.getD_some, Option.getD_none, if_pos]
      cases sampleGps : H.get_polyhaven_status [] <;> simp [sampleGps]
    · have hd := dispatch_handler H fl kvs name h hty hg hl
      rw [hd, hpar]
      rfl
  · intro cmd hne
    cases cmd with
    | obj kvs => exact absurd rfl (hne kvs)
    | null => rfl
    | bool b => rfl
    | num q => rfl
    | str st => rfl
    | arr es => rfl

/-- Witness for C10: the three malformed shapes at concrete inputs. -/
theorem c10_witness :
    execute_command sampleHandlers ⟨false, false⟩ (.obj [("params", .obj [])])
      = errorResp "Unknown command type: None"
    ∧ execute_command sampleHandlers ⟨false, false⟩
        (.obj [("type", .str "execute_code")])
      = successResp (.obj [("executed", .bool true)])
    ∧ execute_command sampleHandlers ⟨false, false⟩ (.str "ping")
      = errorResp "\x27str\x27 object has no attribute \x27get\x27" := by
  have hc := c10_malformed_commands sampleHandlers ⟨false, false⟩
  refine ⟨hc.1 [("params", .obj [])] rfl, ?_,
    hc.2.2 (.str "ping") (fun kvs h => JSON.noConfusion h)⟩
  exact (hc.2.1 [("type", .str "execute_code")] "execute_code"
    sampleHandlers.execute_code rfl rfl rfl).trans rfl

/-! ### Lemmas toward the framing claim: whitespace and digit scans -/

theorem skipWs_append (a b : List Char) (h : skipWs a ≠ []) :
    skipWs (a ++ b) = skipWs a ++ b := by
  induction a with
  | nil => exact absurd rfl h
  | cons c t ih =>
      by_cases hw : isWs c
      · rw [skipWs] at h ⊢
        simp only [hw, if_true] at h ⊢
        rw [List.cons_append, skipWs]
        simp only [hw, if_true]
        exact ih h
      · rw [List.cons_append, skipWs, skipWs]
        simp [hw]

theorem skipWs_nil_iff (l : List Char) :
    skipWs l = [] ↔ ∀ c ∈ l, isWs c = true := by
  induction l with
  | nil => simp [skipWs]
  | cons c t ih =>
      rw [skipWs]
      by_cases hw : isWs c
      · simp [hw, ih]
      · simp [hw]

/-- A character that can extend a trailing JSON number token. -/
def isNumCont (c : Char) : Bool :=
  isDigit c || c = '.' || c = 'e' || c = 'E' || c = '+' || c = '-'

/-- The remainder after a parsed value is a stable boundary: nonempty, and
its first character cannot extend a number token. -/
def boundaryOk : List Char → Prop
  | [] => False
  | c :: _ => isNumCont c = false

theorem isNumCont_of_ws (c : Char) (h : isWs c = true) : isNumCont c = false := by
  have h2 : ((c = ' ' ∨ c = '\t') ∨ c = '\n') ∨ c = '\r' := by
    simpa [isWs] using h
  rcases h2 with ((rfl | rfl) | rfl) | rfl <;> decide

theorem boundaryOk_of_skipWs (r : List Char) (c : Char) (t : List Char)
    (h : skipWs r = c :: t) (hc : isNumCont c = false) : boundaryOk r := by
  cases r with
  | nil => simp [skipWs] at h
  | cons a t2 =>
      rw [skipWs] at h
      by_cases hw : isWs a
      · exact show isNumCont a = false from isNumCont_of_ws a hw
      · simp only [hw, if_false] at h
        cases h
        exact hc

theorem takeDigits_ext (cs : List Char) (ds r ext : List Char)
    (h : takeDigits cs = (ds, r)) (hr : r ≠ []) :
    takeDigits (cs ++ ext) = (ds, r ++ ext) := by
  induction cs generalizing ds with
  | nil =>
      rw [takeDigits] at h
      cases h
      exact absurd rfl hr
  | cons c t ih =>
      rw [takeDigits] at h
      rw [List.cons_append, takeDigits]
      by_cases hd : isDigit c
      · simp only [hd, if_true] at h ⊢
        rcases hde : takeDigits t with ⟨ds2, r2⟩
        rw [hde] at h
        simp only at h
        obtain ⟨h1, h2⟩ := Prod.mk.injEq .. ▸ h
        subst h2
        rw [ih ds2 hde, ← h1]
      · simp only [hd, if_false] at h ⊢
        cases h
        rfl

/-! ### Extension stability of the token scanners -/

theorem stripPre_ext (w cs r ext : List Char) (h : stripPre w cs = some r) :
    stripPre w (cs ++ ext) = some (r ++ ext) := by
  induction w generalizing cs with
  | nil =>
      rw [stripPre] at h ⊢
      cases h
      rfl
  | cons l ls ih =>
      cases cs with
      | nil => rw [stripPre] at h; cases h
      | cons c cs2 =>
          rw [stripPre] at h
          rw [List.cons_append, stripPre]
          by_cases hc : c = l
          · rw [if_pos hc] at h ⊢
            exact ih cs2 h
          · rw [if_neg hc] at h
            cases h

theorem decodeLowSur_ext (n : ℕ) (cs : List Char) (ch : Char) (r ext : List Char)
    (h : decodeLowSur n cs = .ok (ch, r)) :
    decodeLowSur n (cs ++ ext) = .ok (ch, r ++ ext) := by
  rcases cs with _ | ⟨b, _ | ⟨u, _ | ⟨a2, _ | ⟨b2, _ | ⟨c2, _ | ⟨d2, rest3⟩⟩⟩⟩⟩⟩ <;>
    simp only [decodeLowSur] at h <;> try cases h
  simp only [List.cons_append, decodeLowSur]
  by_cases hbu : b = '\\' ∧ u = 'u'
  · rw [if_pos hbu] at h ⊢
    rcases hhex : hex4Val a2 b2 c2 d2 with _ | n2 <;> simp only [hhex] at h ⊢
    · cases h
    · by_cases hsur : 0xDC00 ≤ n2 ∧ n2 ≤ 0xDFFF
      · rw [if_pos hsur] at h ⊢
        simp only [Except.ok.injEq, Prod.mk.injEq] at h
        obtain ⟨rfl, rfl⟩ := h
        rfl
      · rw [if_neg hsur] at h
        cases h
  · rw [if_neg hbu] at h
    cases h

theorem decodeEsc_ext (cs : List Char) (ch : Char) (r ext : List Char)
    (h : decodeEsc cs = .ok (ch, r)) :
    decodeEsc (cs ++ ext) = .ok (ch, r ++ ext) := by
  cases cs with
  | nil => simp [decodeEsc.eq_def] at h
  | cons e rest1 =>
      simp only [decodeEsc.eq_def, List.cons_append] at h ⊢
      by_cases he : e = 'u'
      · rw [if_pos he] at h ⊢
        rcases rest1 with _ | ⟨a, _ | ⟨b, _ | ⟨c1, _ | ⟨d, rest2⟩⟩⟩⟩ <;>
          simp only at h <;> try cases h
        simp only [List.cons_append]
        rcases hhex : hex4Val a b c1 d with _ | n <;> simp only [hhex] at h ⊢
        · cases h
        · by_cases hr1 : n < 0xD800 ∨ 0xDFFF < n
          · rw [if_pos hr1] at h ⊢
            simp only [Except.ok.injEq, Prod.mk.injEq] at h
            obtain ⟨rfl, rfl⟩ := h
            rfl
          · rw [if_neg hr1] at h ⊢
            by_cases hlow : n < 0xDC00
            · rw [if_pos hlow] at h ⊢
              exact decodeLowSur_ext n rest2 ch r ext h
            · rw [if_neg hlow] at h
              cases h
      · rw [if_neg he] at h ⊢
        rcases hesc : escTable e with _ | c2 <;> simp only [hesc] at h ⊢
        · cases h
        · simp only [Except.ok.injEq, Prod.mk.injEq] at h
          obtain ⟨rfl, rfl⟩ := h
          rfl

theorem parseStrAux_ext (fuel : ℕ) :
    ∀ (acc cs : List Char) (out : String) (r ext : List Char),
      parseStrAux fuel acc cs = .ok (out, r) →
      parseStrAux fuel acc (cs ++ ext) = .ok (out, r ++ ext) := by
  induction fuel with
  | zero => intro acc cs out r ext h; rw [parseStrAux] at h; cases h
  | succ fuel ih =>
      intro acc cs out r ext h
      cases cs with
      | nil => rw [parseStrAux] at h; cases h
      | cons c rest =>
          rw [parseStrAux] at h
          rw [List.cons_append, parseStrAux]
          by_cases hq : c = '"'
          · rw [if_pos hq] at h ⊢
            simp only [Except.ok.injEq, Prod.mk.injEq] at h
            obtain ⟨rfl, rfl⟩ := h
            rfl
          · rw [if_neg hq] at h ⊢
            by_cases hb : c = '\\'
            · rw [if_pos hb] at h ⊢
              generalize hg : decodeEsc rest = dres at h
              cases dres with
              | error e => exact Except.noConfusion h
              | ok pair =>
                  obtain ⟨ch, rest2⟩ := pair
                  rw [decodeEsc_ext rest ch rest2 ext hg]
                  exact ih (ch :: acc) rest2 out r ext h
            · rw [if_neg hb] at h ⊢
              by_cases hctl : c.toNat < 0x20
              · rw [if_pos hctl] at h
                cases h
              · rw [if_neg hctl] at h ⊢
                exact ih (c :: acc) rest out r ext h

theorem parseStrAux_mono (fuel : ℕ) :
    ∀ (acc cs : List Char) (x : String × List Char),
      parseStrAux fuel acc cs = .ok x → parseStrAux (fuel + 1) acc cs = .ok x := by
  induction fuel with
  | zero => intro acc cs x h; rw [parseStrAux] at h; cases h
  | succ fuel ih =>
      intro acc cs x h
      cases cs with
      | nil => rw [parseStrAux] at h; cases h
      | cons c rest =>
          rw [parseStrAux] at h
          rw [parseStrAux]
          by_cases hq : c = '"'
          · rw [if_pos hq] at h ⊢
            exact h
          · rw [if_neg hq] at h ⊢
            by_cases hb : c = '\\'
            · rw [if_pos hb] at h ⊢
              generalize hg : decodeEsc rest = dres at h ⊢
              cases dres with
              | error e => exact h
              | ok pair =>
                  obtain ⟨ch, rest2⟩ := pair
                  exact ih (ch :: acc) rest2 x h
            · rw [if_neg hb] at h ⊢
              by_cases hctl : c.toNat < 0x20
              · rw [if_pos hctl] at h ⊢
                exact h
              · rw [if_neg hctl] at h ⊢
                exact ih (c :: acc) rest x h

theorem parseStrAux_le (fuel fuel2 : ℕ) (hle : fuel ≤ fuel2) :
    ∀ (acc cs : List Char) (x : String × List Char),
      parseStrAux fuel acc cs = .ok x → parseStrAux fuel2 acc cs = .ok x := by
  induction fuel2 with
  | zero =>
      intro acc cs x h
      rw [Nat.le_zero.mp hle] at h
      exact h
  | succ f2 ih =>
      intro acc cs x h
      rcases Nat.lt_or_ge fuel (f2 + 1) with hlt | hge
      · exact parseStrAux_mono f2 acc cs x (ih (Nat.lt_succ_iff.mp hlt) acc cs x h)
      · rw [Nat.le_antisymm hle hge] at h
        exact h

theorem parseStr_ext (cs : List Char) (out : String) (r ext : List Char)
    (h : parseStr cs = .ok (out, r)) :
    parseStr (cs ++ ext) = .ok (out, r ++ ext) := by
  rw [parseStr] at h ⊢
  have h2 := parseStrAux_ext (cs.length + 1) [] cs out r ext h
  refine parseStrAux_le (cs.length + 1) ((cs ++ ext).length + 1) ?_ [] (cs ++ ext) _ h2
  simp

theorem takeDigits_suffix (cs : List Char) :
    ∀ ds r, takeDigits cs = (ds, r) → ∃ k, cs = k ++ r := by
  induction cs with
  | nil =>
      intro ds r h
      rw [takeDigits] at h
      cases h
      exact ⟨[], rfl⟩
  | cons c t ih =>
      intro ds r h
      rw [takeDigits] at h
      by_cases hd : isDigit c
      · rw [if_pos hd] at h
        rcases hde : takeDigits t with ⟨ds2, r2⟩
        rw [hde] at h
        simp only at h
        cases h
        obtain ⟨k, hk⟩ := ih ds2 r hde
        exact ⟨c :: k, by rw [List.cons_append, ← hk]⟩
      · rw [if_neg hd] at h
        cases h
        exact ⟨[], rfl⟩

/-- The first unconsumed character after a digit scan is not a digit. -/
theorem takeDigits_rest (cs : List Char) :
    ∀ ds c t, takeDigits cs = (ds, c :: t) → isDigit c = false := by
  induction cs with
  | nil =>
      intro ds c t h
      rw [takeDigits] at h
      cases h
  | cons c2 t2 ih =>
      intro ds c t h
      rw [takeDigits] at h
      by_cases hd : isDigit c2
      · rw [if_pos hd] at h
        rcases hde : takeDigits t2 with ⟨ds2, r2⟩
        rw [hde] at h
        simp only at h
        cases h
        exact ih ds2 c t hde
      · rw [if_neg hd] at h
        cases h
        simpa using hd

theorem parseExpTail_suffix (r cs3 : List Char) (sgn : Bool) (ds r3 : List Char)
    (h : parseExpTail r cs3 = (sgn, ds, r3)) :
    r3 = cs3 ∨ ∃ k, r = k ++ r3 := by
  cases r with
  | nil =>
      rw [parseExpTail] at h
      cases h
      exact .inl rfl
  | cons c2 r2 =>
      rw [parseExpTail] at h
      by_cases hp : c2 = '+'
      · rw [if_pos hp] at h
        rcases htd : takeDigits r2 with ⟨ds0, r30⟩
        rw [htd] at h
        simp only at h
        by_cases hds0 : ds0 = []
        · rw [if_pos hds0] at h
          cases h
          exact .inl rfl
        · rw [if_neg hds0] at h
          cases h
          obtain ⟨k, hk⟩ := takeDigits_suffix r2 ds r3 htd
          exact .inr ⟨c2 :: k, by rw [List.cons_append, ← hk]⟩
      · rw [if_neg hp] at h
        by_cases hm : c2 = '-'
        · rw [if_pos hm] at h
          rcases htd : takeDigits r2 with ⟨ds0, r30⟩
          rw [htd] at h
          simp only at h
          by_cases hds0 : ds0 = []
          · rw [if_pos hds0] at h
            cases h
            exact .inl rfl
          · rw [if_neg hds0] at h
            cases h
            obtain ⟨k, hk⟩ := takeDigits_suffix r2 ds r3 htd
            exact .inr ⟨c2 :: k, by rw [List.cons_append, ← hk]⟩
        · rw [if_neg hm] at h
          rcases htd : takeDigits (c2 :: r2) with ⟨ds0, r30⟩
          rw [htd] at h
          simp only at h
          by_cases hds0 : ds0 = []
          · rw [if_pos hds0] at h
            cases h
            exact .inl rfl
          · rw [if_neg hds0] at h
            cases h
            obtain ⟨k, hk⟩ := takeDigits_suffix (c2 :: r2) ds r3 htd
            exact .inr ⟨k, hk⟩

theorem parseExpTail_ext (r cs3 : List Char) (sgn : Bool) (ds r3 ext : List Char)
    (h : parseExpTail r cs3 = (sgn, ds, r3)) (hds : ds ≠ []) (hr3 : r3 ≠ []) :
    parseExpTail (r ++ ext) (cs3 ++ ext) = (sgn, ds, r3 ++ ext) := by
  cases r with
  | nil =>
      rw [parseExpTail] at h
      cases h
      exact absurd rfl hds
  | cons c2 r2 =>
      rw [parseExpTail] at h
      rw [List.cons_append, parseExpTail]
      by_cases hp : c2 = '+'
      · rw [if_pos hp] at h ⊢
        rcases htd : takeDigits r2 with ⟨ds0, r30⟩
        rw [htd] at h
        simp only at h
        by_cases hds0 : ds0 = []
        · rw [if_pos hds0] at h
          cases h
          exact absurd rfl hds
        · rw [if_neg hds0] at h
          cases h
          rw [takeDigits_ext r2 ds r3 ext htd hr3]
          simp only [if_neg hds0]
      · rw [if_neg hp] at h ⊢
        by_cases hm : c2 = '-'
        · rw [if_pos hm] at h ⊢
          rcases htd : takeDigits r2 with ⟨ds0, r30⟩
          rw [htd] at h
          simp only at h
          by_cases hds0 : ds0 = []
          · rw [if_pos hds0] at h
            cases h
            exact absurd rfl hds
          · rw [if_neg hds0] at h
            cases h
            rw [takeDigits_ext r2 ds r3 ext htd hr3]
            simp only [if_neg hds0]
        · rw [if_neg hm] at h ⊢
          rcases htd : takeDigits (c2 :: r2) with ⟨ds0, r30⟩
          rw [htd] at h
          simp only at h
          by_cases hds0 : ds0 = []
          · rw [if_pos hds0] at h
            cases h
            exact absurd rfl hds
          · rw [if_neg hds0] at h
            cases h
            rw [show c2 :: (r2 ++ ext) = (c2 :: r2) ++ ext from rfl,
              takeDigits_ext (c2 :: r2) ds r3 ext htd hr3]
            simp only [if_neg hds0]

theorem parseFrac_suffix (cs2 : List Char) (ds cs3 : List Char)
    (h : parseFrac cs2 = (ds, cs3)) : ∃ k, cs2 = k ++ cs3 := by
  cases cs2 with
  | nil =>
      rw [parseFrac] at h
      cases h
      exact ⟨[], rfl⟩
  | cons c r =>
      rw [parseFrac] at h
      by_cases hdot : c = '.'
      · rw [if_pos hdot] at h
        rcases htd : takeDigits r with ⟨ds0, r20⟩
        rw [htd] at h
        simp only at h
        by_cases hds0 : ds0 = []
        · rw [if_pos hds0] at h
          cases h
          exact ⟨[], rfl⟩
        · rw [if_neg hds0] at h
          cases h
          obtain ⟨k, hk⟩ := takeDigits_suffix r ds cs3 htd
          exact ⟨c :: k, by rw [List.cons_append, ← hk]⟩
      · rw [if_neg hdot] at h
        cases h
        exact ⟨[], rfl⟩

theorem parseExp_suffix (cs3 : List Char) (sgn : Bool) (ds cs4 : List Char)
    (h : parseExp cs3 = (sgn, ds, cs4)) : ∃ k, cs3 = k ++ cs4 := by
  cases cs3 with
  | nil =>
      rw [parseExp] at h
      cases h
      exact ⟨[], rfl⟩
  | cons c r =>
      rw [parseExp] at h
      by_cases he : c = 'e' ∨ c = 'E'
      · rw [if_pos he] at h
        rcases parseExpTail_suffix r (c :: r) sgn ds cs4 h with heq | ⟨k, hk⟩
        · exact ⟨[], heq.symm⟩
        · exact ⟨c :: k, by rw [List.cons_append, ← hk]⟩
      · rw [if_neg he] at h
        cases h
        exact ⟨[], rfl⟩

theorem parseNumTail_suffix (neg : Bool) (intDs cs2 : List Char) (q : ℚ)
    (r : List Char) (h : parseNumTail neg intDs cs2 = .ok (q, r)) :
    ∃ k, cs2 = k ++ r := by
  rw [parseNumTail] at h
  rcases hfr : parseFrac cs2 with ⟨fracDs, cs3⟩
  rw [hfr] at h
  simp only at h
  rcases hex : parseExp cs3 with ⟨sgn, expDs, cs4⟩
  rw [hex] at h
  simp only at h
  obtain ⟨h1, h2⟩ := Prod.mk.injEq .. ▸ Except.ok.inj h
  subst h2
  obtain ⟨k1, hk1⟩ := parseFrac_suffix cs2 fracDs cs3 hfr
  obtain ⟨k2, hk2⟩ := parseExp_suffix cs3 sgn expDs cs4 hex
  exact ⟨k1 ++ k2, by rw [hk1, hk2, List.append_assoc]⟩

theorem parseExpTail_empty (r cs3 : List Char) (sgn : Bool) (cs4 : List Char)
    (h : parseExpTail r cs3 = (sgn, [], cs4)) : cs4 = cs3 := by
  cases r with
  | nil =>
      rw [parseExpTail] at h
      cases h
      rfl
  | cons c2 r2 =>
      rw [parseExpTail] at h
      by_cases hp : c2 = '+'
      · rw [if_pos hp] at h
        rcases htd : takeDigits r2 with ⟨ds0, r30⟩
        rw [htd] at h
        simp only at h
        by_cases hds0 : ds0 = []
        · rw [if_pos hds0] at h
          cases h
          rfl
        · rw [if_neg hds0] at h
          simp only [Prod.mk.injEq] at h
          exact absurd h.2.1 hds0
      · rw [if_neg hp] at h
        by_cases hm : c2 = '-'
        · rw [if_pos hm] at h
          rcases htd : takeDigits r2 with ⟨ds0, r30⟩
          rw [htd] at h
          simp only at h
          by_cases hds0 : ds0 = []
          · rw [if_pos hds0] at h
            cases h
            rfl
          · rw [if_neg hds0] at h
            simp only [Prod.mk.injEq] at h
            exact absurd h.2.1 hds0
        · rw [if_neg hm] at h
          rcases htd : takeDigits (c2 :: r2) with ⟨ds0, r30⟩
          rw [htd] at h
          simp only at h
          by_cases hds0 : ds0 = []
          · rw [if_pos hds0] at h
            cases h
            rfl
          · rw [if_neg hds0] at h
            simp only [Prod.mk.injEq] at h
            exact absurd h.2.1 hds0

/-- Number-tail extension: with a stable boundary after the parsed number,
appending input changes nothing. -/
theorem parseNumTail_ext (neg : Bool) (intDs cs2 : List Char) (q : ℚ)
    (r ext : List Char) (h : parseNumTail neg intDs cs2 = .ok (q, r))
    (hb : boundaryOk r) : parseNumTail neg intDs (cs2 ++ ext) = .ok (q, r ++ ext) := by
  obtain ⟨rh, rt, rfl⟩ : ∃ rh rt, r = rh :: rt := by
    cases r with
    | nil => exact absurd hb (by rw [boundaryOk]; exact not_false)
    | cons rh rt => exact ⟨rh, rt, rfl⟩
  have hrc : isNumCont rh = false := hb
  rw [parseNumTail] at h
  rw [parseNumTail]
  rcases hfr : parseFrac cs2 with ⟨fracDs, cs3⟩
  rw [hfr] at h
  simp only at h
  rcases hex : parseExp cs3 with ⟨sgn, expDs, cs4⟩
  rw [hex] at h
  simp only at h
  obtain ⟨h1, h2⟩ := Prod.mk.injEq .. ▸ Except.ok.inj h
  subst h2
  have hcs3ne : cs3 ≠ [] := by
    obtain ⟨k2, hk2⟩ := parseExp_suffix cs3 sgn expDs (rh :: rt) hex
    intro hnil
    rw [hnil] at hk2
    exact absurd hk2.symm (by simp)
  have hex2 : parseExp (cs3 ++ ext) = (sgn, expDs, (rh :: rt) ++ ext) := by
    cases cs3 with
    | nil => exact absurd rfl hcs3ne
    | cons c3 r3 =>
        rw [parseExp] at hex
        rw [List.cons_append, parseExp]
        by_cases he : c3 = 'e' ∨ c3 = 'E'
        · rw [if_pos he] at hex ⊢
          by_cases heds : expDs = []
          · exfalso
            subst heds
            have hcs4 := parseExpTail_empty r3 (c3 :: r3) sgn (rh :: rt) hex
            have hrh : rh = c3 := (List.cons.injEq .. ▸ hcs4).1
            rcases he with rfl | rfl <;> subst hrh <;> simp [isNumCont] at hrc
          · exact parseExpTail_ext r3 (c3 :: r3) sgn expDs (rh :: rt) ext hex
              heds (by simp)
        · rw [if_neg he] at hex ⊢
          cases hex
          rfl
  have hfr2 : parseFrac (cs2 ++ ext) = (fracDs, cs3 ++ ext) := by
    cases cs2 with
    | nil =>
        exfalso
        rw [parseFrac] at hfr
        cases hfr
        exact hcs3ne rfl
    | cons c rr =>
        rw [parseFrac] at hfr
        rw [List.cons_append, parseFrac]
        by_cases hdot : c = '.'
        · rw [if_pos hdot] at hfr ⊢
          rcases htd : takeDigits rr with ⟨ds0, r20⟩
          rw [htd] at hfr
          simp only at hfr
          by_cases hds0 : ds0 = []
          · exfalso
            rw [if_pos hds0] at hfr
            cases hfr
            -- the exponent stage cannot consume a leading dot
            rw [parseExp] at hex
            rw [if_neg (by subst hdot; decide)] at hex
            simp only [Prod.mk.injEq, List.cons.injEq] at hex
            obtain ⟨-, -, hrh, -⟩ := hex
            rw [← hrh, hdot] at hrc
            simp [isNumCont] at hrc
          · rw [if_neg hds0] at hfr
            cases hfr
            rw [takeDigits_ext rr fracDs cs3 ext htd hcs3ne]
            simp only [if_neg hds0]
        · rw [if_neg hdot] at hfr ⊢
          cases hfr
          rfl
  rw [hfr2]
  simp only
  rw [hex2]
  simp only
  rw [h1]

/-- Number extension: with a stable boundary after the parsed number,
appending input does not change the parse. -/
theorem parseNum_ext (cs : List Char) (q : ℚ) (r ext : List Char)
    (h : parseNum cs = .ok (q, r)) (hb : boundaryOk r) :
    parseNum (cs ++ ext) = .ok (q, r ++ ext) := by
  have hrne : r ≠ [] := by
    cases r with
    | nil => exact absurd hb (by rw [boundaryOk]; exact not_false)
    | cons a b => simp
  cases cs with
  | nil => simp [parseNum] at h
  | cons c r0 =>
      simp only [parseNum, List.cons_append] at h ⊢
      by_cases hm : c = '-'
      · rw [if_pos hm] at h ⊢
        simp only at h ⊢
        cases r0 with
        | nil => simp at h
        | cons c1 r1 =>
            simp only [List.cons_append] at h ⊢
            by_cases h0 : c1 = '0'
            · rw [if_pos h0] at h ⊢
              exact parseNumTail_ext true ['0'] r1 q r ext h hb
            · rw [if_neg h0] at h ⊢
              by_cases hd : isDigit c1 = true
              · rw [if_pos hd] at h ⊢
                rcases htd : takeDigits r1 with ⟨ds, r2⟩
                rw [htd] at h
                simp only at h
                have hr2ne : r2 ≠ [] := by
                  obtain ⟨k, hk⟩ := parseNumTail_suffix true (c1 :: ds) r2 q r h
                  rw [hk]
                  simp [hrne]
                rw [takeDigits_ext r1 ds r2 ext htd hr2ne]
                simp only
                exact parseNumTail_ext true (c1 :: ds) r2 q r ext h hb
              · rw [if_neg hd] at h
                cases h
      · rw [if_neg hm] at h ⊢
        simp only at h ⊢
        by_cases h0 : c = '0'
        · rw [if_pos h0] at h ⊢
          exact parseNumTail_ext false ['0'] r0 q r ext h hb
        · rw [if_neg h0] at h ⊢
          by_cases hd : isDigit c = true
          · rw [if_pos hd] at h ⊢
            rcases htd : takeDigits r0 with ⟨ds, r2⟩
            rw [htd] at h
            simp only at h
            have hr2ne : r2 ≠ [] := by
              obtain ⟨k, hk⟩ := parseNumTail_suffix false (c :: ds) r2 q r h
              rw [hk]
              simp [hrne]
            rw [takeDigits_ext r0 ds r2 ext htd hr2ne]
            simp only
            exact parseNumTail_ext false (c :: ds) r2 q r ext h hb
          · rw [if_neg hd] at h
            cases h

/-! ### Fuel monotonicity of the mutual parser -/

mutual

theorem parseVal_mono : ∀ (fuel : ℕ) (cs : List Char) (x : JSON × List Char),
    parseVal fuel cs = .ok x → parseVal (fuel + 1) cs = .ok x
  | 0, cs, x, h => by rw [parseVal] at h; cases h
  | fuel + 1, cs, x, h => by
      rw [parseVal] at h ⊢
      generalize hw : skipWs cs = w at h ⊢
      cases w with
      | nil => exact h
      | cons c r =>
          simp only [lcase] at h ⊢
          by_cases hn : c = 'n'
          · rw [if_pos hn] at h ⊢; exact h
          · rw [if_neg hn] at h ⊢
            by_cases ht : c = 't'
            · rw [if_pos ht] at h ⊢; exact h
            · rw [if_neg ht] at h ⊢
              by_cases hf : c = 'f'
              · rw [if_pos hf] at h ⊢; exact h
              · rw [if_neg hf] at h ⊢
                by_cases hq : c = '"'
                · rw [if_pos hq] at h ⊢; exact h
                · rw [if_neg hq] at h ⊢
                  by_cases ha : c = '['
                  · rw [if_pos ha] at h ⊢
                    generalize hw2 : skipWs r = w2 at h ⊢
                    cases w2 with
                    | nil => exact h
                    | cons c2 r2 =>
                        simp only [lcase] at h ⊢
                        by_cases hrb : c2 = ']'
                        · rw [if_pos hrb] at h ⊢; exact h
                        · rw [if_neg hrb] at h ⊢
                          generalize he : parseElems fuel (c2 :: r2) = res at h
                          cases res with
                          | error e => simp only [pbind] at h; cases h
                          | ok pair =>
                              obtain ⟨es, r3⟩ := pair
                              rw [parseElems_mono fuel (c2 :: r2) (es, r3) he]
                              exact h
                  · rw [if_neg ha] at h ⊢
                    by_cases hb : c = '{'
                    · rw [if_pos hb] at h ⊢
                      generalize hw2 : skipWs r = w2 at h ⊢
                      cases w2 with
                      | nil => exact h
                      | cons c2 r2 =>
                          simp only [lcase] at h ⊢
                          by_cases hrb : c2 = '}'
                          · rw [if_pos hrb] at h ⊢; exact h
                          · rw [if_neg hrb] at h ⊢
                            generalize he : parseMembers fuel (c2 :: r2) = res at h
                            cases res with
                            | error e => simp only [pbind] at h; cases h
                            | ok pair =>
                                obtain ⟨ms, r3⟩ := pair
                                rw [parseMembers_mono fuel (c2 :: r2) (ms, r3) he]
                                exact h
                    · rw [if_neg hb] at h ⊢
                      by_cases hnum : c = '-' ∨ isDigit c = true
                      · rw [if_pos hnum] at h ⊢; exact h
                      · rw [if_neg hnum] at h ⊢; exact h

theorem parseElems_mono : ∀ (fuel : ℕ) (cs : List Char) (x : List JSON × List Char),
    parseElems fuel cs = .ok x → parseElems (fuel + 1) cs = .ok x
  | 0, cs, x, h => by rw [parseElems] at h; cases h
  | fuel + 1, cs, x, h => by
      rw [parseElems] at h ⊢
      generalize hv : parseVal fuel cs = res at h
      cases res with
      | error e => simp only [pbind] at h; cases h
      | ok pair =>
          obtain ⟨v, r⟩ := pair
          rw [parseVal_mono fuel cs (v, r) hv]
          simp only [pbind] at h ⊢
          generalize hw : skipWs r = w at h ⊢
          cases w with
          | nil => exact h
          | cons c2 r2 =>
              simp only [lcase] at h ⊢
              by_cases hrb : c2 = ']'
              · rw [if_pos hrb] at h ⊢; exact h
              · rw [if_neg hrb] at h ⊢
                by_cases hc : c2 = ','
                · rw [if_pos hc] at h ⊢
                  generalize he : parseElems fuel r2 = res2 at h
                  cases res2 with
                  | error e => simp only [pbind] at h; cases h
                  | ok pair2 =>
                      obtain ⟨vs, r3⟩ := pair2
                      rw [parseElems_mono fuel r2 (vs, r3) he]
                      exact h
                · rw [if_neg hc] at h ⊢; exact h

theorem parseMembers_mono :
    ∀ (fuel : ℕ) (cs : List Char) (x : List (String × JSON) × List Char),
    parseMembers fuel cs = .ok x → parseMembers (fuel + 1) cs = .ok x
  | 0, cs, x, h => by rw [parseMembers] at h; cases h
  | fuel + 1, cs, x, h => by
      rw [parseMembers] at h ⊢
      generalize hw : skipWs cs = w at h ⊢
      cases w with
      | nil => exact h
      | cons c r =>
          simp only [lcase] at h ⊢
          by_cases hq : c = '"'
          · rw [if_pos hq] at h ⊢
            generalize hs : parseStr r = res at h ⊢
            cases res with
            | error e => exact h
            | ok pair =>
                obtain ⟨key, r1⟩ := pair
                simp only [pbind] at h ⊢
                generalize hw2 : skipWs r1 = w2 at h ⊢
                cases w2 with
                | nil => exact h
                | cons c2 r2 =>
                    simp only [lcase] at h ⊢
                    by_cases hcol : c2 = ':'
                    · rw [if_pos hcol] at h ⊢
                      generalize hv : parseVal fuel r2 = res2 at h
                      cases res2 with
                      | error e => simp only [pbind] at h; cases h
                      | ok pair2 =>
                          obtain ⟨v, r3⟩ := pair2
                          rw [parseVal_mono fuel r2 (v, r3) hv]
                          simp only [pbind] at h ⊢
                          generalize hw3 : skipWs r3 = w3 at h ⊢
                          cases w3 with
                          | nil => exact h
                          | cons c3 r4 =>
                              simp only [lcase] at h ⊢
                              by_cases hbr : c3 = '}'
                              · rw [if_pos hbr] at h ⊢; exact h
                              · rw [if_neg hbr] at h ⊢
                                by_cases hcm : c3 = ','
                                · rw [if_pos hcm] at h ⊢
                                  generalize he : parseMembers fuel r4 = res3 at h
                                  cases res3 with
                                  | error e => simp only [pbind] at h; cases h
                                  | ok pair3 =>
                                      obtain ⟨ms, r5⟩ := pair3
                                      rw [parseMembers_mono fuel r4 (ms, r5) he]
                                      exact h
                                · rw [if_neg hcm] at h ⊢; exact h
                    · rw [if_neg hcol] at h ⊢; exact h
          · rw [if_neg hq] at h ⊢; exact h

end

theorem parseVal_le (fuel fuel2 : ℕ) (hle : fuel ≤ fuel2) (cs : List Char)
    (x : JSON × List Char) (h : parseVal fuel cs = .ok x) :
    parseVal fuel2 cs = .ok x := by
  induction fuel2 with
  | zero =>
      rw [Nat.le_zero.mp hle] at h
      exact h
  | succ f2 ih =>
      rcases Nat.lt_or_ge fuel (f2 + 1) with hlt | hge
      · exact parseVal_mono f2 cs x (ih (Nat.lt_succ_iff.mp hlt))
      · rw [Nat.le_antisymm hle hge] at h
        exact h

/-- Number values are exactly what `parseNum` produces. -/
def JSON.isNum : JSON → Bool
  | .num _ => true
  | _ => false

/-! ### Extension stability of the mutual parser: feeding more input after a
parse that ended at a stable boundary does not change the result. -/

mutual

theorem parseVal_ext : ∀ (fuel : ℕ) (cs : List Char) (v : JSON) (r ext : List Char),
    parseVal fuel cs = .ok (v, r) → (JSON.isNum v = true → boundaryOk r) →
    parseVal fuel (cs ++ ext) = .ok (v, r ++ ext)
  | 0, cs, v, r, ext, h, _ => by rw [parseVal] at h; cases h
  | fuel + 1, cs, v, r, ext, h, hb => by
      rw [parseVal] at h ⊢
      generalize hw : skipWs cs = w at h
      cases w with
      | nil => simp only [lcase] at h; cases h
      | cons c rr =>
          rw [skipWs_append cs ext (by rw [hw]; simp), hw]
          simp only [List.cons_append, lcase] at h ⊢
          by_cases hn : c = 'n'
          · rw [if_pos hn] at h ⊢
            generalize hsp : stripPre ['u', 'l', 'l'] rr = o at h
            cases o with
            | none => simp only [obind] at h; cases h
            | some r2 =>
                rw [stripPre_ext _ rr r2 ext hsp]
                simp only [obind] at h ⊢
                cases h
                rfl
          · rw [if_neg hn] at h ⊢
            by_cases ht : c = 't'
            · rw [if_pos ht] at h ⊢
              generalize hsp : stripPre ['r', 'u', 'e'] rr = o at h
              cases o with
              | none => simp only [obind] at h; cases h
              | some r2 =>
                  rw [stripPre_ext _ rr r2 ext hsp]
                  simp only [obind] at h ⊢
                  cases h
                  rfl
            · rw [if_neg ht] at h ⊢
              by_cases hf : c = 'f'
              · rw [if_pos hf] at h ⊢
                generalize hsp : stripPre ['a', 'l', 's', 'e'] rr = o at h
                cases o with
                | none => simp only [obind] at h; cases h
                | some r2 =>
                    rw [stripPre_ext _ rr r2 ext hsp]
                    simp only [obind] at h ⊢
                    cases h
                    rfl
              · rw [if_neg hf] at h ⊢
                by_cases hq : c = '"'
                · rw [if_pos hq] at h ⊢
                  generalize hs : parseStr rr = res at h
                  cases res with
                  | error e => simp only [pbind] at h; cases h
                  | ok pair =>
                      obtain ⟨s, r2⟩ := pair
                      rw [parseStr_ext rr s r2 ext hs]
                      simp only [pbind] at h ⊢
                      cases h
                      rfl
                · rw [if_neg hq] at h ⊢
                  by_cases ha : c = '['
                  · rw [if_pos ha] at h ⊢
                    generalize hw2 : skipWs rr = w2 at h
                    cases w2 with
                    | nil => simp only [lcase] at h; cases h
                    | cons c2 r2 =>
                        rw [skipWs_append rr ext (by rw [hw2]; simp), hw2]
                        simp only [List.cons_append, lcase] at h ⊢
                        by_cases hrb : c2 = ']'
                        · rw [if_pos hrb] at h ⊢
                          cases h
                          rfl
                        · rw [if_neg hrb] at h ⊢
                          generalize he : parseElems fuel (c2 :: r2) = res at h
                          cases res with
                          | error e => simp only [pbind] at h; cases h
                          | ok pair =>
                              obtain ⟨es, r3⟩ := pair
                              rw [← List.cons_append,
                                parseElems_ext fuel (c2 :: r2) es r3 ext he]
                              simp only [pbind] at h ⊢
                              cases h
                              rfl
                  · rw [if_neg ha] at h ⊢
                    by_cases hbc : c = '{'
                    · rw [if_pos hbc] at h ⊢
                      generalize hw2 : skipWs rr = w2 at h
                      cases w2 with
                      | nil => simp only [lcase] at h; cases h
                      | cons c2 r2 =>
                          rw [skipWs_append rr ext (by rw [hw2]; simp), hw2]
                          simp only [List.cons_append, lcase] at h ⊢
                          by_cases hrb : c2 = '}'
                          · rw [if_pos hrb] at h ⊢
                            cases h
                            rfl
                          · rw [if_neg hrb] at h ⊢
                            generalize he : parseMembers fuel (c2 :: r2) = res at h
                            cases res with
                            | error e => simp only [pbind] at h; cases h
                            | ok pair =>
                                obtain ⟨ms, r3⟩ := pair
                                rw [← List.cons_append,
                                  parseMembers_ext fuel (c2 :: r2) ms r3 ext he]
                                simp only [pbind] at h ⊢
                                cases h
                                rfl
                    · rw [if_neg hbc] at h ⊢
                      by_cases hnum : c = '-' ∨ isDigit c = true
                      · rw [if_pos hnum] at h ⊢
                        generalize hp : parseNum (c :: rr) = res at h
                        cases res with
                        | error e => simp only [pbind] at h; cases h
                        | ok pair =>
                            obtain ⟨q, r2⟩ := pair
                            simp only [pbind] at h ⊢
                            cases h
                            rw [← List.cons_append,
                              parseNum_ext (c :: rr) q r ext hp (hb rfl)]
                      · rw [if_neg hnum] at h
                        cases h

theorem parseElems_ext : ∀ (fuel : ℕ) (cs : List Char) (es : List JSON)
    (r ext : List Char), parseElems fuel cs = .ok (es, r) →
    parseElems fuel (cs ++ ext) = .ok (es, r ++ ext)
  | 0, cs, es, r, ext, h => by rw [parseElems] at h; cases h
  | fuel + 1, cs, es, r, ext, h => by
      rw [parseElems] at h ⊢
      generalize hv : parseVal fuel cs = res at h
      cases res with
      | error e => simp only [pbind] at h; cases h
      | ok pair =>
          obtain ⟨v, rr⟩ := pair
          simp only [pbind] at h
          generalize hw : skipWs rr = w at h
          cases w with
          | nil => simp only [lcase] at h; cases h
          | cons c2 r2 =>
              simp only [lcase] at h
              by_cases hrb : c2 = ']'
              · rw [if_pos hrb] at h
                have hbd : boundaryOk rr :=
                  boundaryOk_of_skipWs rr c2 r2 hw (by rw [hrb]; decide)
                rw [parseVal_ext fuel cs v rr ext hv (fun _ => hbd)]
                simp only [pbind]
                rw [skipWs_append rr ext (by rw [hw]; simp), hw]
                simp only [List.cons_append, lcase]
                rw [if_pos hrb]
                cases h
                rfl
              · rw [if_neg hrb] at h
                by_cases hc : c2 = ','
                · rw [if_pos hc] at h
                  have hbd : boundaryOk rr :=
                    boundaryOk_of_skipWs rr c2 r2 hw (by rw [hc]; decide)
                  rw [parseVal_ext fuel cs v rr ext hv (fun _ => hbd)]
                  simp only [pbind]
                  rw [skipWs_append rr ext (by rw [hw]; simp), hw]
                  simp only [List.cons_append, lcase]
                  rw [if_neg hrb, if_pos hc]
                  generalize he : parseElems fuel r2 = res2 at h
                  cases res2 with
                  | error e => simp only [pbind] at h; cases h
                  | ok pair2 =>
                      obtain ⟨vs, r3⟩ := pair2
                      rw [parseElems_ext fuel r2 vs r3 ext he]
                      simp only [pbind] at h ⊢
                      cases h
                      rfl
                · rw [if_neg hc] at h
                  cases h

theorem parseMembers_ext : ∀ (fuel : ℕ) (cs : List Char)
    (ms : List (String × JSON)) (r ext : List Char),
    parseMembers fuel cs = .ok (ms, r) →
    parseMembers fuel (cs ++ ext) = .ok (ms, r ++ ext)
  | 0, cs, ms, r, ext, h => by rw [parseMembers] at h; cases h
  | fuel + 1, cs, ms, r, ext, h => by
      rw [parseMembers] at h ⊢
      generalize hw : skipWs cs = w at h
      cases w with
      | nil => simp only [lcase] at h; cases h
      | cons c rr =>
          rw [skipWs_append cs ext (by rw [hw]; simp), hw]
          simp only [List.cons_append, lcase] at h ⊢
          by_cases hq : c = '"'
          · rw [if_pos hq] at h ⊢
            generalize hs : parseStr rr = res at h
            cases res with
            | error e => simp only [pbind] at h; cases h
            | ok pair =>
                obtain ⟨key, r1⟩ := pair
                rw [parseStr_ext rr key r1 ext hs]
                simp only [pbind] at h ⊢
                generalize hw2 : skipWs r1 = w2 at h
                cases w2 with
                | nil => simp only [lcase] at h; cases h
                | cons c2 r2 =>
                    rw [skipWs_append r1 ext (by rw [hw2]; simp), hw2]
                    simp only [List.cons_append, lcase] at h ⊢
                    by_cases hcol : c2 = ':'
                    · rw [if_pos hcol] at h ⊢
                      generalize hv : parseVal fuel r2 = res2 at h
                      cases res2 with
                      | error e => simp only [pbind] at h; cases h
                      | ok pair2 =>
                          obtain ⟨v, r3⟩ := pair2
                          simp only [pbind] at h
                          generalize hw3 : skipWs r3 = w3 at h
                          cases w3 with
                          | nil => simp only [lcase] at h; cases h
                          | cons c3 r4 =>
                              simp only [lcase] at h
                              by_cases hbr : c3 = '}'
                              · rw [if_pos hbr] at h
                                have hbd : boundaryOk r3 :=
                                  boundaryOk_of_skipWs r3 c3 r4 hw3 (by rw [hbr]; decide)
                                rw [parseVal_ext fuel r2 v r3 ext hv (fun _ => hbd)]
                                simp only [pbind]
                                rw [skipWs_append r3 ext (by rw [hw3]; simp), hw3]
                                simp only [List.cons_append, lcase]
                                rw [if_pos hbr]
                                cases h
                                rfl
                              · rw [if_neg hbr] at h
                                by_cases hcm : c3 = ','
                                · rw [if_pos hcm] at h
                                  have hbd : boundaryOk r3 :=
                                    boundaryOk_of_skipWs r3 c3 r4 hw3 (by rw [hcm]; decide)
                                  rw [parseVal_ext fuel r2 v r3 ext hv (fun _ => hbd)]
                                  simp only [pbind]
                                  rw [skipWs_append r3 ext (by rw [hw3]; simp), hw3]
                                  simp only [List.cons_append, lcase]
                                  rw [if_neg hbr, if_pos hcm]
                                  generalize he : parseMembers fuel r4 = res3 at h
                                  cases res3 with
                                  | error e => simp only [pbind] at h; cases h
                                  | ok pair3 =>
                                      obtain ⟨ms2, r5⟩ := pair3
                                      rw [parseMembers_ext fuel r4 ms2 r5 ext he]
                                      simp only [pbind] at h ⊢
                                      cases h
                                      rfl
                                · rw [if_neg hcm] at h
                                  cases h
                    · rw [if_neg hcol] at h
                      cases h
          · rw [if_neg hq] at h
            cases h

end

/-- A successful value parse starts at a nonempty post-whitespace input. -/
theorem parseVal_skipWs_ne_nil : ∀ (fuel : ℕ) (cs : List Char) (x : JSON × List Char),
    parseVal fuel cs = .ok x → skipWs cs ≠ []
  | 0, cs, x, h => by rw [parseVal] at h; cases h
  | fuel + 1, cs, x, h => by
      intro hnil
      rw [parseVal, hnil] at h
      simp only [lcase] at h
      cases h

/-- Only the `\x7b` branch yields an object value. -/
theorem parseVal_obj_head : ∀ (fuel : ℕ) (cs : List Char) (o : List (String × JSON))
    (r : List Char), parseVal fuel cs = .ok (.obj o, r) → ∃ t, skipWs cs = '\x7b' :: t
  | 0, cs, o, r, h => by rw [parseVal] at h; cases h
  | fuel + 1, cs, o, r, h => by
      rw [parseVal] at h
      generalize hw : skipWs cs = w at h
      cases w with
      | nil => simp only [lcase] at h; cases h
      | cons c rr =>
          simp only [lcase] at h
          by_cases hbc : c = '\x7b'
          · refine ⟨rr, ?_⟩
            simp [hw, hbc]
          · exfalso
            by_cases hn : c = 'n'
            · rw [if_pos hn] at h
              generalize hsp : stripPre ['u', 'l', 'l'] rr = od at h
              cases od <;> simp [obind] at h
            · rw [if_neg hn] at h
              by_cases ht : c = 't'
              · rw [if_pos ht] at h
                generalize hsp : stripPre ['r', 'u', 'e'] rr = od at h
                cases od <;> simp [obind] at h
              · rw [if_neg ht] at h
                by_cases hf : c = 'f'
                · rw [if_pos hf] at h
                  generalize hsp : stripPre ['a', 'l', 's', 'e'] rr = od at h
                  cases od <;> simp [obind] at h
                · rw [if_neg hf] at h
                  by_cases hq : c = '"'
                  · rw [if_pos hq] at h
                    generalize hs : parseStr rr = res at h
                    rcases res with e | ⟨st, r2⟩ <;> simp [pbind] at h
                  · rw [if_neg hq] at h
                    by_cases ha : c = '['
                    · rw [if_pos ha] at h
                      generalize hw2 : skipWs rr = w2 at h
                      cases w2 with
                      | nil => simp only [lcase] at h; cases h
                      | cons c2 r2 =>
                          simp only [lcase] at h
                          by_cases hrb : c2 = ']'
                          · rw [if_pos hrb] at h
                            simp at h
                          · rw [if_neg hrb] at h
                            generalize he : parseElems fuel (c2 :: r2) = res at h
                            rcases res with e | ⟨es, r3⟩ <;> simp [pbind] at h
                    · rw [if_neg ha, if_neg hbc] at h
                      by_cases hnum : c = '-' ∨ isDigit c = true
                      · rw [if_pos hnum] at h
                        generalize hp : parseNum (c :: rr) = res at h
                        rcases res with e | ⟨q, r2⟩ <;> simp [pbind] at h
                      · rw [if_neg hnum] at h
                        cases h

/-- Conversely, a parse that starts at `\x7b` yields an object value. -/
theorem parseVal_head_obj : ∀ (fuel : ℕ) (cs : List Char) (v : JSON)
    (r t : List Char), parseVal fuel cs = .ok (v, r) →
    skipWs cs = '\x7b' :: t → ∃ flds, v = .obj flds
  | 0, cs, v, r, t, h, hw => by rw [parseVal] at h; cases h
  | fuel + 1, cs, v, r, t, h, hw => by
      rw [parseVal, hw] at h
      simp only [lcase, reduceIte] at h
      generalize hw2 : skipWs t = w2 at h
      cases w2 with
      | nil => simp only [lcase] at h; cases h
      | cons c2 r2 =>
          simp only [lcase] at h
          by_cases hrb : c2 = '\x7d'
          · rw [if_pos hrb] at h
            refine ⟨[], ?_⟩
            cases h
            rfl
          · rw [if_neg hrb] at h
            generalize he : parseMembers fuel (c2 :: r2) = res at h
            rcases res with e | ⟨ms, r3⟩ <;> simp only [pbind] at h
            · cases h
            · refine ⟨objOfMembers ms, ?_⟩
              cases h
              rfl

/-- Core framing fact: if a whole character stream is a valid top-level
JSON object document with no trailing whitespace, then `json.loads` fails
on every proper front part of it (so the buffer treats it as incomplete). -/
theorem loadsL_front_error (s p tail : List Char) (o : List (String × JSON))
    (hs : loadsL s = .ok (.obj o)) (hsp : s = p ++ tail) (htail : tail ≠ [])
    (hlast : ∀ c, s.getLast? = some c → isWs c = false) :
    ∃ e, loadsL p = .error e := by
  cases hp : loadsL p with
  | error e => exact ⟨e, rfl⟩
  | ok v =>
      exfalso
      rw [loadsL] at hp hs
      generalize hpsv : parseVal (2 * s.length + 2) s = rs at hs
      cases rs with
      | error e => exact Except.noConfusion hs
      | ok pairS =>
          obtain ⟨vs, restS⟩ := pairS
          replace hs : (if skipWs restS = [] then Except.ok vs
              else Except.error "Extra data") = Except.ok (JSON.obj o) := hs
          by_cases hres : skipWs restS = []
          · rw [if_pos hres] at hs
            cases hs
            generalize hppv : parseVal (2 * p.length + 2) p = rp at hp
            cases rp with
            | error e => exact Except.noConfusion hp
            | ok pairP =>
                obtain ⟨vp, restP⟩ := pairP
                replace hp : (if skipWs restP = [] then Except.ok vp
                    else Except.error "Extra data") = Except.ok v := hp
                by_cases hrp : skipWs restP = []
                · rw [if_pos hrp] at hp
                  cases hp
                  have hle : 2 * p.length + 2 ≤ 2 * s.length + 2 := by
                    rw [hsp]
                    simp [List.length_append]
                  have hp2 : parseVal (2 * s.length + 2) p = .ok (v, restP) :=
                    parseVal_le _ _ hle p _ hppv
                  obtain ⟨tS, htS⟩ := parseVal_obj_head _ s o restS hpsv
                  have hpne : skipWs p ≠ [] := parseVal_skipWs_ne_nil _ p _ hp2
                  have hss : skipWs s = skipWs p ++ tail := by
                    rw [hsp]
                    exact skipWs_append p tail hpne
                  obtain ⟨cP, tP, hcp⟩ : ∃ cP tP, skipWs p = cP :: tP := by
                    cases hpw : skipWs p with
                    | nil => exact absurd hpw hpne
                    | cons a b => exact ⟨a, b, rfl⟩
                  have hcPbrace : cP = '\x7b' := by
                    rw [hss, hcp] at htS
                    rw [List.cons_append] at htS
                    exact (List.cons.injEq .. ▸ htS).1
                  obtain ⟨flds, hvp⟩ := parseVal_head_obj _ p v restP tP hp2
                    (by rw [hcp, hcPbrace])
                  have hext : parseVal (2 * s.length + 2) (p ++ tail)
                      = .ok (v, restP ++ tail) :=
                    parseVal_ext _ p v restP tail hp2
                      (by rw [hvp]; intro hn; simp [JSON.isNum] at hn)
                  rw [← hsp, hpsv] at hext
                  have hrest : restS = restP ++ tail := by
                    have h2 := Except.ok.inj hext
                    exact (Prod.mk.injEq .. ▸ h2).2
                  rw [hrest] at hres
                  have hallws : ∀ c ∈ restP ++ tail, isWs c = true :=
                    (skipWs_nil_iff _).mp hres
                  have hlastc : s.getLast? = tail.getLast? := by
                    rw [hsp]
                    exact List.getLast?_append_of_ne_nil p htail
                  have hlws : isWs (tail.getLast htail) = false :=
                    hlast (tail.getLast htail)
                      (by rw [hlastc]; exact List.getLast?_eq_getLast_of_ne_nil htail)
                  have hmem : tail.getLast htail ∈ restP ++ tail :=
                    List.mem_append_right _ (List.getLast_mem htail)
                  rw [hallws _ hmem] at hlws
                  cases hlws
                · rw [if_neg hrp] at hp
                  exact Except.noConfusion hp
          · rw [if_neg hres] at hs
            exact Except.noConfusion hs

/-! ### UTF-8 round trip -/

/-- A scalar value of a `Char` is below the surrogate range or strictly
between it and `0x110000`. -/
theorem char_toNat_valid (c : Char) :
    c.toNat < 0xD800 ∨ (0xDFFF < c.toNat ∧ c.toNat < 0x110000) := by
  have h := c.valid
  unfold UInt32.isValidChar at h
  cases h with
  | inl h =>
      exact Or.inl (UInt32.toNat_lt_of_lt (by decide) h)
  | inr h =>
      exact Or.inr ⟨UInt32.lt_toNat_of_lt (by decide) h.1,
        UInt32.toNat_lt_of_lt (by decide) h.2⟩

theorem utf8EncodeChar_ne_nil (c : Char) : utf8EncodeChar c ≠ [] := by
  rw [utf8EncodeChar]
  by_cases h1 : c.toNat < 0x80
  · simp [h1]
  · by_cases h2 : c.toNat < 0x800
    · simp [h1, h2]
    · by_cases h3 : c.toNat < 0x10000
      · simp [h1, h2, h3]
      · simp [h1, h2, h3]

/-- Decoding the encoding of one character consumes exactly its bytes and
returns its scalar value. -/
theorem utf8DecodeChar_encode (c : Char) (rest : List Nat) :
    utf8DecodeChar (utf8EncodeChar c ++ rest) = some (c.toNat, rest) := by
  have hv := char_toNat_valid c
  rw [utf8EncodeChar]
  by_cases h1 : c.toNat < 0x80
  · rw [if_pos h1, List.cons_append, List.nil_append, utf8DecodeChar, if_pos h1]
  · rw [if_neg h1]
    by_cases h2 : c.toNat < 0x800
    · rw [if_pos h2]
      simp only [List.cons_append, List.nil_append]
      rw [utf8DecodeChar, if_neg (by omega), if_neg (by omega), if_pos (by omega)]
      simp only [ncase]
      rw [if_pos (by unfold isCont; omega)]
      have hval : (0xC0 + c.toNat / 64 - 0xC0) * 64 + (0x80 + c.toNat % 64 - 0x80)
          = c.toNat := by omega
      rw [hval]
    · rw [if_neg h2]
      by_cases h3 : c.toNat < 0x10000
      · rw [if_pos h3]
        simp only [List.cons_append, List.nil_append]
        rw [utf8DecodeChar, if_neg (by omega), if_neg (by omega), if_neg (by omega),
          if_pos (by omega)]
        simp only [ncase]
        rw [if_pos (by unfold isCont; omega)]
        have hval : (0xE0 + c.toNat / 4096 - 0xE0) * 4096
            + (0x80 + c.toNat / 64 % 64 - 0x80) * 64 + (0x80 + c.toNat % 64 - 0x80)
            = c.toNat := by omega
        rw [hval]
      · rw [if_neg h3]
        simp only [List.cons_append, List.nil_append]
        rw [utf8DecodeChar, if_neg (by omega), if_neg (by omega), if_neg (by omega),
          if_neg (by omega), if_pos (by omega)]
        simp only [ncase]
        rw [if_pos (by unfold isCont; omega)]
        have hval : (0xF0 + c.toNat / 262144 - 0xF0) * 262144
            + (0x80 + c.toNat / 4096 % 64 - 0x80) * 4096
            + (0x80 + c.toNat / 64 % 64 - 0x80) * 64 + (0x80 + c.toNat % 64 - 0x80)
            = c.toNat := by omega
        rw [hval]

theorem utf8Encode_append (a b : List Char) :
    utf8Encode (a ++ b) = utf8Encode a ++ utf8Encode b := by
  rw [utf8Encode, utf8Encode, utf8Encode, List.map_append, List.flatten_append]

theorem utf8DecodeL_encode : ∀ (s : List Char) (fuel : Nat), s.length ≤ fuel →
    utf8DecodeL fuel (utf8Encode s) = some s := by
  intro s
  induction s with
  | nil =>
      intro fuel _
      show utf8DecodeL fuel [] = some []
      cases fuel with
      | zero => rw [utf8DecodeL]
      | succ f => rw [utf8DecodeL]
  | cons c s ih =>
      intro fuel hf
      cases fuel with
      | zero => simp at hf
      | succ f =>
          have henc : utf8Encode (c :: s) = utf8EncodeChar c ++ utf8Encode s := by
            rw [utf8Encode, utf8Encode, List.map_cons, List.flatten_cons]
          rw [henc]
          cases hE : utf8EncodeChar c with
          | nil => exact absurd hE (utf8EncodeChar_ne_nil c)
          | cons b bs =>
              rw [List.cons_append, utf8DecodeL]
              have hdc : utf8DecodeChar (b :: (bs ++ utf8Encode s))
                  = some (c.toNat, utf8Encode s) := by
                rw [← List.cons_append, ← hE]
                exact utf8DecodeChar_encode c _
              rw [hdc]
              simp only [obind]
              rw [ih f (Nat.le_of_succ_le_succ hf)]
              simp [Char.ofNat_toNat]

theorem utf8Encode_length_ge (s : List Char) : s.length ≤ (utf8Encode s).length := by
  induction s with
  | nil => simp [utf8Encode]
  | cons c s ih =>
      have henc : utf8Encode (c :: s) = utf8EncodeChar c ++ utf8Encode s := by
        rw [utf8Encode, utf8Encode, List.map_cons, List.flatten_cons]
      rw [henc, List.length_append, List.length_cons]
      have h1 : 0 < (utf8EncodeChar c).length :=
        List.length_pos.mpr (utf8EncodeChar_ne_nil c)
      omega

/-- Python never raises `UnicodeDecodeError` on a buffer that is the UTF-8
encoding of a character string, and decodes it back to that string. -/
theorem utf8Decode_encode (s : List Char) : utf8Decode (utf8Encode s) = some s :=
  utf8DecodeL_encode s _ (utf8Encode_length_ge s)

/-! ### The framing loop on character-aligned chunks -/

/-- A framing step whose whole buffer text parses decodes the value and
clears the buffer. -/
theorem feedB_encode_ok (p q : List Char) (v : JSON) (h : loadsL (p ++ q) = .ok v) :
    feedB (utf8Encode p) (utf8Encode q) = .dec v [] := by
  rw [feedB, ← utf8Encode_append, utf8Decode_encode]
  simp only [obind]
  rw [h]
  simp only [ecase]

/-- A framing step whose whole buffer text fails to parse keeps the whole
buffer and produces nothing. -/
theorem feedB_encode_err (p q : List Char) (e : String)
    (h : loadsL (p ++ q) = .error e) :
    feedB (utf8Encode p) (utf8Encode q) = .inc (utf8Encode (p ++ q)) := by
  rw [feedB, ← utf8Encode_append, utf8Decode_encode]
  simp only [obind]
  rw [h]
  simp only [ecase]

theorem flatten_ne_nil_of_mem (cs : List (List Char)) (hne : cs ≠ [])
    (hall : ∀ c ∈ cs, c ≠ []) : cs.flatten ≠ [] := by
  cases cs with
  | nil => exact absurd rfl hne
  | cons c rest =>
      rw [List.flatten_cons]
      have hc : c ≠ [] := hall c (List.mem_cons_self c rest)
      intro h
      rw [List.append_eq_nil] at h
      exact hc h.1

/-- The chunked-feeding invariant, generalised over an already-buffered
prefix `p` of the document. -/
theorem feedTrace_encode_aux :
    ∀ (cs : List (List Char)) (p : List Char) (o : List (String × JSON)),
      cs ≠ [] →
      (∀ c ∈ cs, c ≠ []) →
      loadsL (p ++ cs.flatten) = .ok (.obj o) →
      (∀ ch, (p ++ cs.flatten).getLast? = some ch → isWs ch = false) →
      feedTrace (utf8Encode p) (cs.map utf8Encode) =
        (List.range (cs.length - 1)).map
          (fun i => FeedOut.inc (utf8Encode (p ++ (cs.take (i + 1)).flatten)))
        ++ [FeedOut.dec (.obj o) []] := by
  intro cs
  induction cs with
  | nil => intro p o hne _ _ _; exact absurd rfl hne
  | cons c cs ih =>
      intro p o _ hall hok hlast
      cases cs with
      | nil =>
          have hok2 : loadsL (p ++ c) = .ok (.obj o) := by simpa using hok
          rw [List.map_cons, List.map_nil, feedTrace,
            feedB_encode_ok p c (.obj o) hok2]
          simp only [fcase]
          rw [feedTrace]
          simp
      | cons c2 cs2 =>
          have hfne : (c2 :: cs2).flatten ≠ [] :=
            flatten_ne_nil_of_mem _ (by simp)
              (fun x hx => hall x (List.mem_cons_of_mem c hx))
          have hassoc : p ++ (c :: c2 :: cs2).flatten
              = (p ++ c) ++ (c2 :: cs2).flatten := by
            rw [List.flatten_cons, ← List.append_assoc]
          have hok2 : loadsL ((p ++ c) ++ (c2 :: cs2).flatten) = .ok (.obj o) := by
            rw [← hassoc]; exact hok
          have hlast2 : ∀ ch, ((p ++ c) ++ (c2 :: cs2).flatten).getLast? = some ch →
              isWs ch = false := by
            intro ch hch
            exact hlast ch (by rw [hassoc]; exact hch)
          obtain ⟨e, he⟩ := loadsL_front_error _ (p ++ c) ((c2 :: cs2).flatten) o
            hok2 rfl hfne hlast2
          rw [List.map_cons, feedTrace, feedB_encode_err p c e he]
          simp only [fcase]
          rw [ih (p ++ c) o (by simp)
            (fun x hx => hall x (List.mem_cons_of_mem c hx)) hok2 hlast2]
          have hlen1 : (c :: c2 :: cs2).length - 1 = cs2.length + 1 := by simp
          have hlen2 : (c2 :: cs2).length - 1 = cs2.length := by simp
          rw [hlen1, hlen2, List.range_succ_eq_map, List.map_cons, List.map_map,
            List.cons_append]
          congr 1
          · simp
          · congr 1
            apply List.map_congr_left
            intro i _
            simp [Function.comp, List.take_succ_cons, List.append_assoc]

/-- C3 (amended): for every JSON Command that parses as a top-level object
and whose final character is not JSON whitespace, and for every split of its
text into non-empty character chunks (so chunk boundaries fall on UTF-8
character boundaries), feeding the chunks\x27 UTF-8 encodings one at a time
to the connection\x27s framing buffer reports incomplete after every chunk
except the last — the buffer retaining exactly the bytes received so far —
and after the last chunk decodes exactly the original Command and clears
the buffer to empty. -/
theorem c3_framing (chunks : List (List Char)) (o : List (String × JSON))
    (hne : chunks ≠ []) (hcne : ∀ c ∈ chunks, c ≠ [])
    (hok : loadsL chunks.flatten = .ok (.obj o))
    (hlast : Option.all (fun ch => !isWs ch) chunks.flatten.getLast? = true) :
    feedTrace [] (chunks.map utf8Encode) =
      (List.range (chunks.length - 1)).map
        (fun i => FeedOut.inc (utf8Encode ((chunks.take (i + 1)).flatten)))
      ++ [FeedOut.dec (.obj o) []] := by
  have hlast2 : ∀ ch, ([] ++ chunks.flatten).getLast? = some ch →
      isWs ch = false := by
    intro ch hch
    rw [List.nil_append] at hch
    rw [hch] at hlast
    have hb : (!isWs ch) = true := hlast
    simpa using hb
  have h := feedTrace_encode_aux chunks [] o hne hcne (by simpa using hok) hlast2
  rw [show utf8Encode [] = ([] : List Nat) from rfl] at h
  simpa using h

/-- Witness for C3: the command `\x7b"a":1\x7d` split into the two chunks
`\x7b"a"` and `:1\x7d` is incomplete after the first chunk and decodes on
the second with the buffer cleared. -/
theorem c3_witness :
    feedTrace [] ([['\x7b', '"', 'a', '"'], [':', '1', '\x7d']].map utf8Encode) =
      (List.range ([['\x7b', '"', 'a', '"'], [':', '1', '\x7d']].length - 1)).map
        (fun i => FeedOut.inc (utf8Encode
          (([['\x7b', '"', 'a', '"'], [':', '1', '\x7d']].take (i + 1)).flatten)))
      ++ [FeedOut.dec (.obj [("a", .num 1)]) []] :=
  c3_framing [['\x7b', '"', 'a', '"'], [':', '1', '\x7d']] [("a", .num 1)]
    (by decide) (by decide) (by decide) (by decide)

/-- Counterexample to C3 as stated: (i) the valid command `\x7b"a":1\x7d `
(trailing space) fed as the chunks `\x7b"a":1\x7d` and ` ` decodes already
on the first (non-final) chunk and leaves the buffer holding the space (not
empty, and nothing decoded) after the final chunk; (ii) the valid command
`\x7b"a":"é"\x7d` fed as two byte chunks split inside the two-byte UTF-8
sequence of `é` raises `UnicodeDecodeError` (not `JSONDecodeError`) on the
first chunk, which breaks the connection instead of reporting
incomplete. -/
theorem c3_counterexample :
    (loadsL "\x7b\"a\":1\x7d ".data = .ok (.obj [("a", .num 1)]) ∧
      feedTrace [] [utf8Encode "\x7b\"a\":1\x7d".data, utf8Encode " ".data] =
        [FeedOut.dec (.obj [("a", .num 1)]) [], FeedOut.inc (utf8Encode " ".data)]) ∧
    (utf8Decode [0x7b, 0x22, 0x61, 0x22, 0x3a, 0x22, 0xC3, 0xA9, 0x22, 0x7d]
        = some "\x7b\"a\":\"é\"\x7d".data ∧
      loadsL "\x7b\"a\":\"é\"\x7d".data = .ok (.obj [("a", .str "é")]) ∧
      feedTrace [] [[0x7b, 0x22, 0x61, 0x22, 0x3a, 0x22, 0xC3], [0xA9, 0x22, 0x7d]]
        = [FeedOut.fatal]) := by
  decide

end BlenderMCP


